import Mathlib

/-!
# Verification of the scorch disk-usage tree engine

A shallow embedding of the scorch repository (a sunburst disk-usage
visualizer) into Lean 4, together with proofs about the tree model
(`src/model.rs`), the scanner (`src/scanner.rs`), the sunburst layout and
hit-testing (`src/sunburst.rs`), navigation state (`src/app.rs`), the
deletion subsystem (`src/actions.rs`) and the in-memory tree prune
(`src/ui.rs`).

Modelling conventions:
* A `PathBuf` holding an absolute path is modelled as its list of
  components (`List String`); the root `/` is `[]`.  Its string rendering
  (used by the string-based checks `is_protected_path` / `is_virtual_fs`)
  is `pathString`.
* `u64` / `usize` are modelled as `Nat` (sizes only ever grow by addition
  of file lengths; no overflow behaviour is relied upon by the claims).
* `f64` angle arithmetic is modelled over `ℝ`.
* Filesystem I/O is modelled by an explicit `FsNode` tree handed to the
  scanner, and by a `FileSys` record handed to `delete_entry`; the mpsc
  channel is modelled as the emitted list of `ScanProgress` messages.
-/

namespace Scorch

/-- File type categories for color coding (`model.rs`, `FileType`). -/
inductive FileType where
  | Directory
  | Video
  | Image
  | Audio
  | Archive
  | Document
  | Code
  | Other
deriving DecidableEq, Repr

/-- `FileType::from_extension` (`model.rs` lines 18-42): determine the file
type from a (lower-cased) extension string. -/
def FileType.from_extension (ext : String) : FileType :=
  let e := ext.toLower
  if ["mp4", "mkv", "avi", "mov", "wmv", "flv", "webm", "m4v", "mpeg", "mpg"].contains e then
    FileType.Video
  else if ["jpg", "jpeg", "png", "gif", "bmp", "svg", "webp", "ico", "tiff", "raw"].contains e then
    FileType.Image
  else if ["mp3", "flac", "wav", "aac", "ogg", "wma", "m4a", "opus"].contains e then
    FileType.Audio
  else if ["zip", "tar", "gz", "bz2", "xz", "7z", "rar", "zst", "lz4"].contains e then
    FileType.Archive
  else if ["pdf", "doc", "docx", "txt", "rtf", "odt", "xls", "xlsx", "ppt", "pptx"].contains e then
    FileType.Document
  else if ["rs", "py", "js", "ts", "c", "cpp", "h", "java", "go", "rb", "php", "sh",
      "bash", "zsh", "json", "yaml", "yml", "toml", "xml", "html", "css",
      "scss", "md", "sql"].contains e then
    FileType.Code
  else
    FileType.Other

/-- A directory or file entry with size information (`model.rs`, `DirEntry`).
The `path` is the component list of the absolute filesystem path. -/
inductive DirEntry where
  | mk (path : List String) (name : String) (size : Nat) (file_type : FileType)
       (children : List DirEntry) (is_file : Bool)

/-- Path field of a `DirEntry`. -/
def DirEntry.path : DirEntry → List String
  | .mk p _ _ _ _ _ => p

/-- Name field of a `DirEntry`. -/
def DirEntry.name : DirEntry → String
  | .mk _ n _ _ _ _ => n

/-- Size field of a `DirEntry`. -/
def DirEntry.size : DirEntry → Nat
  | .mk _ _ sz _ _ _ => sz

/-- File-type field of a `DirEntry`. -/
def DirEntry.file_type : DirEntry → FileType
  | .mk _ _ _ ft _ _ => ft

/-- Children field of a `DirEntry`. -/
def DirEntry.children : DirEntry → List DirEntry
  | .mk _ _ _ _ cs _ => cs

/-- `is_file` field of a `DirEntry`. -/
def DirEntry.is_file : DirEntry → Bool
  | .mk _ _ _ _ _ f => f

@[simp] theorem DirEntry.path_mk (p n sz ft cs f) :
    (DirEntry.mk p n sz ft cs f).path = p := rfl

@[simp] theorem DirEntry.name_mk (p n sz ft cs f) :
    (DirEntry.mk p n sz ft cs f).name = n := rfl

@[simp] theorem DirEntry.size_mk (p n sz ft cs f) :
    (DirEntry.mk p n sz ft cs f).size = sz := rfl

@[simp] theorem DirEntry.file_type_mk (p n sz ft cs f) :
    (DirEntry.mk p n sz ft cs f).file_type = ft := rfl

@[simp] theorem DirEntry.children_mk (p n sz ft cs f) :
    (DirEntry.mk p n sz ft cs f).children = cs := rfl

@[simp] theorem DirEntry.is_file_mk (p n sz ft cs f) :
    (DirEntry.mk p n sz ft cs f).is_file = f := rfl

/-- String rendering of an absolute path given by its components:
`[] ↦ "/"`, `["usr","local"] ↦ "/usr/local"`.  This is the value
`path.to_string_lossy()` takes in the Rust source. -/
def pathString (p : List String) : String :=
  "/" ++ String.intercalate "/" p

/-- The filesystem parent of a path, as `PathBuf::parent` computes it:
`"/"` has no parent; otherwise drop the last component. -/
def parentPath : List String → Option (List String)
  | [] => none
  | p => some p.dropLast

/-- Last path component, as `Path::file_name` returns it (none for `/`). -/
def fileName (p : List String) : Option String := p.getLast?

/-- Does `pre` occur as a leading run of `s`?  (`str::starts_with`,
written out over the character lists so that it evaluates.) -/
def charsBegin : List Char → List Char → Bool
  | [], _ => true
  | _ :: _, [] => false
  | a :: pre2, b :: s2 => a == b && charsBegin pre2 s2

/-- `s.starts_with(pre)` for strings. -/
def strStartsWith (s pre : String) : Bool := charsBegin pre.data s.data

/-- Walk a file name's characters from the end, collecting the run after
the final dot (`none` when there is no dot, or when the only dot leads the
name). -/
def extFromRev : List Char → List Char → Option (List Char)
  | _, [] => none
  | acc, c :: rest =>
    if c = '.' then (if rest = [] then none else some acc)
    else extFromRev (c :: acc) rest

/-- The extension of a file name, following `Path::extension`: the portion
after the final dot, except that a name with no dot, or a leading-dot name
with no further dot, has none. -/
def extensionOf (nm : String) : Option String :=
  (extFromRev [] nm.data.reverse).map (fun cs => ⟨cs⟩)

/-- `DirEntry::new_dir` (`model.rs` lines 72-85). -/
def DirEntry.new_dir (p : List String) : DirEntry :=
  let nm := match fileName p with
    | some n => n
    | none => pathString p
  .mk p nm 0 FileType.Directory [] false

/-- `DirEntry::new_file` (`model.rs` lines 88-105). -/
def DirEntry.new_file (p : List String) (size : Nat) : DirEntry :=
  let nm := (fileName p).getD ""
  let ft := ((extensionOf nm).map FileType.from_extension).getD FileType.Other
  .mk p nm size ft [] true

mutual

/-- `DirEntry::total_size` (`model.rs` lines 108-114): a file contributes
its own size, a directory the recursive sum over its children. -/
def DirEntry.total_size : DirEntry → Nat
  | .mk _ _ sz _ cs f => if f then sz else totalListSize cs

/-- Sum of `total_size` over a list of entries. -/
def totalListSize : List DirEntry → Nat
  | [] => 0
  | c :: cs => c.total_size + totalListSize cs

end

@[simp] theorem total_size_mk (p n sz ft cs f) :
    (DirEntry.mk p n sz ft cs f).total_size = if f then sz else totalListSize cs := by
  rw [DirEntry.total_size]

@[simp] theorem totalListSize_nil : totalListSize [] = 0 := rfl

@[simp] theorem totalListSize_cons (c : DirEntry) (cs : List DirEntry) :
    totalListSize (c :: cs) = c.total_size + totalListSize cs := rfl

mutual

/-- `DirEntry::find_by_path` (`model.rs` lines 130-140): depth-first search
by exact path equality. -/
def DirEntry.find_by_path (e : DirEntry) (t : List String) : Option DirEntry :=
  if e.path = t then some e else findListByPath e.children t
termination_by sizeOf e
decreasing_by cases e <;> simp [DirEntry.children] <;> omega

/-- Search a list of entries in order, returning the first hit. -/
def findListByPath : List DirEntry → List String → Option DirEntry
  | [], _ => none
  | c :: cs, t =>
    match c.find_by_path t with
    | some r => some r
    | none => findListByPath cs t
termination_by cs _ => sizeOf cs
decreasing_by all_goals simp <;> omega

end

/-- `sizeOf` of a filtered list is at most `sizeOf` of the list (used for
the termination of `remove_entry_from_tree`, whose `retain` is modelled by
`List.filter`). -/
theorem sizeOf_filter_le {α : Type} [SizeOf α] (q : α → Bool) (l : List α) :
    sizeOf (l.filter q) ≤ sizeOf l := by
  induction l with
  | nil => simp
  | cons a l ih =>
    rw [List.filter_cons]
    by_cases h : q a = true <;> simp [h] <;> omega

mutual

/-- `remove_entry_from_tree` (`ui.rs` lines 592-605).  The boolean result
and the early `return true` of the source are modelled faithfully: when the
loop's recursive call reports `true` the remaining siblings are left
unprocessed and the node's size is *not* recomputed.  (As proved below the
boolean is in fact always `false`.) -/
def remove_entry_from_tree : DirEntry → List String → DirEntry × Bool
  | .mk p n sz ft cs f, t =>
    let kids := cs.filter (fun c => c.path ≠ t)
    match removeLoop kids t with
    | (kids2, true) => (.mk p n sz ft kids2 f, true)
    | (kids2, false) => (.mk p n (totalListSize kids2) ft kids2 f, false)
termination_by e _ => sizeOf e
decreasing_by
  have h := sizeOf_filter_le (fun c : DirEntry => decide ¬c.path = t) cs
  simp at h ⊢ <;> omega

/-- The `for child in &mut entry.children` loop of `remove_entry_from_tree`,
with its early exit. -/
def removeLoop : List DirEntry → List String → List DirEntry × Bool
  | [], _ => ([], false)
  | c :: cs, t =>
    match remove_entry_from_tree c t with
    | (c2, true) => (c2 :: cs, true)
    | (c2, false) =>
      match removeLoop cs t with
      | (cs2, b) => (c2 :: cs2, b)
termination_by cs _ => sizeOf cs
decreasing_by all_goals simp <;> omega

end

/-- Permuting a list does not change its `sizeOf` (termination helper for
`sort_by_size`). -/
theorem perm_sizeOf_eq {α : Type} [SizeOf α] {l₁ l₂ : List α}
    (h : l₁.Perm l₂) : sizeOf l₁ = sizeOf l₂ := by
  induction h with
  | nil => rfl
  | cons a _ ih => simp [ih]
  | swap a b l => simp; omega
  | trans _ _ ih₁ ih₂ => omega

mutual

/-- `DirEntry::sort_by_size` (`model.rs` lines 122-127): sort the children
by descending `total_size` (the Rust `sort_by` is a stable sort, hence
agrees with `List.mergeSort`), then recursively sort each child. -/
def DirEntry.sort_by_size : DirEntry → DirEntry
  | .mk p n sz ft cs f =>
    .mk p n sz ft (sortChildren (cs.mergeSort
      (fun a b => decide (b.total_size ≤ a.total_size)))) f
termination_by e => sizeOf e
decreasing_by
  rename_i n sz ft cs f
  have h := perm_sizeOf_eq (List.mergeSort_perm cs
    (fun a b => decide (b.total_size ≤ a.total_size)))
  simp [h] <;> omega

/-- Recursively sort every entry of a list (each entry is a member of the
original children list, permuted). -/
def sortChildren : List DirEntry → List DirEntry
  | [] => []
  | c :: cs => c.sort_by_size :: sortChildren cs
termination_by cs => sizeOf cs
decreasing_by all_goals simp <;> omega

end

/-- Protected system paths that cannot be deleted (`model.rs` lines 169-184). -/
def PROTECTED_PATHS : List String :=
  ["/", "/usr", "/etc", "/bin", "/sbin", "/lib", "/lib64", "/boot",
   "/dev", "/proc", "/sys", "/run", "/var", "/root"]

/-- `is_protected_path` (`model.rs` lines 187-190): exact string equality
against the protected list. -/
def is_protected_path (p : List String) : Bool :=
  PROTECTED_PATHS.any (fun q => pathString p == q)

/-- Virtual filesystems to skip (`scanner.rs` lines 8-14). -/
def VIRTUAL_FS_PATHS : List String := ["/proc", "/sys", "/dev", "/run", "/snap"]

/-- `is_virtual_fs` (`scanner.rs` lines 17-22): equal to a listed mount
point, or nested strictly below one. -/
def is_virtual_fs (p : List String) : Bool :=
  VIRTUAL_FS_PATHS.any (fun v =>
    pathString p == v || strStartsWith (pathString p) (v ++ "/"))

/-! ## Scanner (`scanner.rs`)

The filesystem walked by the scanner is modelled as an `FsNode` tree:
`file` and `dir` nodes are readable objects; `symlink` models a symbolic
link (identified as such by `symlink_metadata`, and dangling as far as the
link-following `fs::metadata` is concerned); `unreadable` models an entry
whose `symlink_metadata`/`fs::metadata` call fails; a `dir` with
`readable := false` is a directory whose `read_dir` call fails. -/

/-- A model of one filesystem object as seen by the scanner. -/
inductive FsNode where
  | file (size : Nat)
  | symlink
  | unreadable
  | dir (readable : Bool) (entries : List (String × FsNode))

/-- Progress update during scanning (`scanner.rs`, `ScanProgress`). -/
inductive ScanProgress where
  | Scanning (path : String)
  | ItemCount (n : Nat)
  | Complete (entry : DirEntry)
  | Error (msg : String)

mutual

/-- `build_entry_quiet` (`scanner.rs` lines 129-183): build an entry
without sending progress messages, threading the item counter.  Returns
the result and the updated counter. -/
def build_entry_quiet (p : List String) (n : FsNode) (count : Nat) :
    Except String DirEntry × Nat :=
  if is_virtual_fs p then
    (Except.ok (DirEntry.new_dir p), count)
  else
    match n with
    | .unreadable => (Except.error ("Cannot read " ++ pathString p), count)
    | .file sz => (Except.ok (DirEntry.new_file p sz), count)
    | .symlink => (Except.ok (DirEntry.new_dir p), count)
    | .dir readable entries =>
      if readable then
        match quietChildren p entries count with
        | (kids, count2) =>
          (Except.ok (.mk p ((DirEntry.new_dir p).name) (totalListSize kids)
            FileType.Directory kids false), count2)
      else
        (Except.ok (DirEntry.new_dir p), count)
termination_by sizeOf n
decreasing_by simp <;> omega

/-- The `for item in read_dir` loop of `build_entry_quiet`: visit each
entry, incrementing the counter, skipping symlinks, unreadable items and
virtual filesystems, recursing into subdirectories. -/
def quietChildren : List String → List (String × FsNode) → Nat →
    List DirEntry × Nat
  | _, [], count => ([], count)
  | base, (nm, item) :: rest, count =>
    let count1 := count + 1
    let ipath := base ++ [nm]
    match item with
    | .unreadable => quietChildren base rest count1
    | .symlink => quietChildren base rest count1
    | .file sz =>
      match quietChildren base rest count1 with
      | (kids, c2) => (DirEntry.new_file ipath sz :: kids, c2)
    | .dir readable entries =>
      if is_virtual_fs ipath then
        quietChildren base rest count1
      else
        match build_entry_quiet ipath (.dir readable entries) count1 with
        | (.ok child, c2) =>
          match quietChildren base rest c2 with
          | (kids, c3) => (child :: kids, c3)
        | (.error _, c2) => quietChildren base rest c2
termination_by _ items _ => sizeOf items
decreasing_by all_goals simp <;> omega

end

/-- The `for item in read_dir` loop of `build_entry` (`scanner.rs` lines
83-120): like `quietChildren` but also emitting an `ItemCount` message
whenever the counter reaches a multiple of 100.  Subdirectories are built
with `build_entry_quiet` (no messages). -/
def loudChildren : List String → List (String × FsNode) → Nat →
    List DirEntry × List ScanProgress × Nat
  | _, [], count => ([], [], count)
  | base, (nm, item) :: rest, count =>
    let count1 := count + 1
    let msgs1 : List ScanProgress :=
      if count1 % 100 = 0 then [.ItemCount count1] else []
    let ipath := base ++ [nm]
    match item with
    | .unreadable =>
      match loudChildren base rest count1 with
      | (kids, msgs, c2) => (kids, msgs1 ++ msgs, c2)
    | .symlink =>
      match loudChildren base rest count1 with
      | (kids, msgs, c2) => (kids, msgs1 ++ msgs, c2)
    | .file sz =>
      match loudChildren base rest count1 with
      | (kids, msgs, c2) => (DirEntry.new_file ipath sz :: kids, msgs1 ++ msgs, c2)
    | .dir readable entries =>
      if is_virtual_fs ipath then
        match loudChildren base rest count1 with
        | (kids, msgs, c2) => (kids, msgs1 ++ msgs, c2)
      else
        match build_entry_quiet ipath (.dir readable entries) count1 with
        | (.ok child, c2) =>
          match loudChildren base rest c2 with
          | (kids, msgs, c3) => (child :: kids, msgs1 ++ msgs, c3)
        | (.error _, c2) =>
          match loudChildren base rest c2 with
          | (kids, msgs, c3) => (kids, msgs1 ++ msgs, c3)

/-- `build_entry` (`scanner.rs` lines 67-126): build the root entry,
emitting `ItemCount` messages.  Root-level failures (metadata or read_dir)
are terminal errors.  A root symlink is modelled as dangling, so the
link-following `fs::metadata` fails. -/
def build_entry : List String → FsNode → Nat →
    Except String DirEntry × List ScanProgress × Nat
  | p, .unreadable, count => (Except.error ("Cannot read " ++ pathString p), [], count)
  | p, .symlink, count => (Except.error ("Cannot read " ++ pathString p), [], count)
  | p, .file sz, _count => (Except.ok (DirEntry.new_file p sz), [], _count)
  | p, .dir readable entries, count =>
    if readable then
      match loudChildren p entries count with
      | (kids, msgs, c2) =>
        (Except.ok (.mk p ((DirEntry.new_dir p).name) (totalListSize kids)
          FileType.Directory kids false), msgs, c2)
    else
      (Except.error ("Cannot read directory " ++ pathString p), [], count)

/-- `scan_recursive` (`scanner.rs` lines 48-65), started by
`scan_directory` with a fresh counter: the full ordered message trace one
scan sends over the channel. -/
def scan_recursive (p : List String) (n : FsNode) : List ScanProgress :=
  let count := 0 + 1
  let msgs0 : List ScanProgress :=
    if count % 100 = 0 then [.ItemCount count] else []
  let scanning : List ScanProgress := [.Scanning (pathString p)]
  match build_entry p n count with
  | (.ok e, msgs, _) =>
    msgs0 ++ scanning ++ msgs ++ [.Complete e.sort_by_size]
  | (.error msg, msgs, _) =>
    msgs0 ++ scanning ++ msgs ++ [.Error msg]

/-! ## Tree predicates

Boolean (hence decidable and executable) formulations of the spec's tree
invariants. -/

mutual

/-- Aggregation invariant: every directory node's stored `size` equals the
sum of `total_size` over its children, recursively. -/
def sizesValid : DirEntry → Bool
  | .mk _ _ sz _ cs f =>
    (if f then true else decide (sz = totalListSize cs)) && sizesValidList cs

/-- `sizesValid` for every entry of a list. -/
def sizesValidList : List DirEntry → Bool
  | [] => true
  | c :: cs => sizesValid c && sizesValidList cs

end

/-- Consecutive entries have non-increasing `total_size`. -/
def chainDesc : List DirEntry → Bool
  | [] => true
  | [_] => true
  | a :: b :: rest => decide (b.total_size ≤ a.total_size) && chainDesc (b :: rest)

mutual

/-- Size-descending order invariant: at every node, consecutive children
have non-increasing `total_size`. -/
def sortedOk : DirEntry → Bool
  | .mk _ _ _ _ cs _ => chainDesc cs && sortedOkList cs

/-- `sortedOk` for every entry of a list. -/
def sortedOkList : List DirEntry → Bool
  | [] => true
  | c :: cs => sortedOk c && sortedOkList cs

end

mutual

/-- Well-formedness: file nodes have no children (true of every tree the
scanner builds, and preserved by the prune). -/
def wellFormed : DirEntry → Bool
  | .mk _ _ _ _ cs f => (!f || cs.isEmpty) && wellFormedList cs

/-- `wellFormed` for every entry of a list. -/
def wellFormedList : List DirEntry → Bool
  | [] => true
  | c :: cs => wellFormed c && wellFormedList cs

end

mutual

/-- Path-hierarchy invariant (spec §3): every child's path is its parent's
path extended by one component (specifically the child's name). -/
def hierOk : DirEntry → Bool
  | .mk p _ _ _ cs _ => cs.all (fun c => decide (c.path = p ++ [c.name])) && hierOkList cs

/-- `hierOk` for every entry of a list. -/
def hierOkList : List DirEntry → Bool
  | [] => true
  | c :: cs => hierOk c && hierOkList cs

end

/-! ## Sunburst layout and hit-testing (`sunburst.rs`)

`f64` angles are modelled over `ℝ`; the constants `2.0 * PI` and the
minimum angle `0.01` are `2 * π` and `1/100`. -/

/-- Maximum depth of rings to display (`sunburst.rs` line 7). -/
def MAX_DEPTH : Nat := 5

/-- Minimum angle (radians) for a segment to be rendered
(`sunburst.rs` line 10). -/
noncomputable def MIN_ANGLE : ℝ := 0.01

/-- A segment in the sunburst chart (`sunburst.rs`, `Segment`). -/
structure Segment where
  path : List String
  name : String
  size : Nat
  file_type : FileType
  depth : Nat
  start_angle : ℝ
  end_angle : ℝ
  is_file : Bool

open Real in
mutual

/-- `build_segments_recursive` (`sunburst.rs` lines 69-124): subdivide the
parent's angular range among the children. -/
noncomputable def build_segments_recursive (entry : DirEntry) (depth : Nat)
    (start_angle end_angle : ℝ) (total_size : Nat) (max_depth : Nat) :
    List Segment :=
  if depth > max_depth then []
  else segLoop entry.children depth start_angle (end_angle - start_angle)
    total_size max_depth
termination_by sizeOf entry
decreasing_by cases entry <;> simp [DirEntry.children] <;> omega

/-- The `for child in &entry.children` loop of `build_segments_recursive`:
`current_angle` advances only past emitted children; zero-size children and
children whose span is below `MIN_ANGLE` are skipped (and, crucially,
`current_angle` is *not* advanced for them). -/
noncomputable def segLoop : List DirEntry → Nat → ℝ → ℝ → Nat → Nat →
    List Segment
  | [], _, _, _, _, _ => []
  | child :: rest, depth, current_angle, angle_range, total, max_depth =>
    if child.total_size = 0 then
      segLoop rest depth current_angle angle_range total max_depth
    else
      let child_angle := (child.total_size : ℝ) / (total : ℝ) * angle_range
      if child_angle < MIN_ANGLE then
        segLoop rest depth current_angle angle_range total max_depth
      else
        let child_end := current_angle + child_angle
        ⟨child.path, child.name, child.total_size, child.file_type, depth,
          current_angle, child_end, child.is_file⟩ ::
          ((if !child.is_file && !child.children.isEmpty then
              build_segments_recursive child (depth + 1) current_angle
                child_end child.total_size max_depth
            else []) ++
            segLoop rest depth child_end angle_range total max_depth)
termination_by children _ _ _ _ _ => sizeOf children
decreasing_by all_goals simp <;> omega

end

open Real in
/-- `build_segments` (`sunburst.rs` lines 44-67): a center segment for the
root spanning the full circle, then the recursive subdivision; an empty
list when the root's total size is zero. -/
noncomputable def build_segments (root : DirEntry) (max_depth : Nat) :
    List Segment :=
  let total := root.total_size
  if total = 0 then []
  else
    ⟨root.path, root.name, total, root.file_type, 0, 0, 2 * π, root.is_file⟩ ::
      build_segments_recursive root 1 0 (2 * π) total max_depth

/-- `f64::atan2` (`dy.atan2(dx)`), as the argument of the complex number
`dx + dy·i`, valued in `(-π, π]`. -/
noncomputable def atan2 (y x : ℝ) : ℝ := Complex.arg ⟨x, y⟩

/-- The ring index of `find_segment_at_point`: distance below one ring
width maps to 0 (the center), otherwise `distance / ring_width` floored
(the `as usize` cast clamps negatives to 0) and capped at `MAX_DEPTH`. -/
noncomputable def hitDepth (distance ring_width : ℝ) : Nat :=
  if distance < ring_width then 0
  else min (Int.toNat ⌊distance / ring_width⌋) MAX_DEPTH

open Real in
/-- The angle normalization of `find_segment_at_point`: `atan2` values in
`(-π, 0)` are shifted by `2π` into `[0, 2π)`. -/
noncomputable def normAngle (a : ℝ) : ℝ := if a < 0 then a + 2 * π else a

open Classical in
/-- `find_segment_at_point` (`sunburst.rs` lines 127-156): polar-convert
the point and return the first segment at the computed ring whose half-open
angular interval contains the normalized angle. -/
noncomputable def find_segment_at_point (segments : List Segment)
    (x y center_x center_y ring_width : ℝ) : Option Segment :=
  let dx := x - center_x
  let dy := y - center_y
  let distance := Real.sqrt (dx * dx + dy * dy)
  let depth := hitDepth distance ring_width
  let angle := normAngle (atan2 dy dx)
  segments.find? (fun s =>
    decide (s.depth = depth) && decide (angle ≥ s.start_angle) &&
      decide (angle < s.end_angle))

/-! ## Application state and navigation (`app.rs`) -/

/-- Application state (`app.rs`, `AppState`). -/
structure AppState where
  scan_root : Option DirEntry
  view_root : List String
  hover_path : Option (List String)
  segments : List Segment
  scanning : Bool
  progress_msg : String
  items_scanned : Nat

/-- `AppState::get_view_entry` (`app.rs` lines 46-50). -/
def get_view_entry (st : AppState) : Option DirEntry :=
  st.scan_root.bind (fun r => r.find_by_path st.view_root)

/-- `AppState::rebuild_segments` (`app.rs` lines 82-86). -/
noncomputable def rebuild_segments (st : AppState) : AppState :=
  match get_view_entry st with
  | some e => { st with segments := build_segments e MAX_DEPTH }
  | none => st

/-- `AppState::navigate_up` (`app.rs` lines 61-70): move to the filesystem
parent only when it resolves within the scan tree. -/
noncomputable def navigate_up (st : AppState) : AppState :=
  match parentPath st.view_root with
  | some parent =>
    if (st.scan_root.bind (fun r => r.find_by_path parent)).isSome then
      rebuild_segments { st with view_root := parent }
    else st
  | none => st

/-- `AppState::can_navigate_up` (`app.rs` lines 73-79). -/
def can_navigate_up (st : AppState) : Bool :=
  match st.scan_root with
  | some root => decide (st.view_root ≠ root.path) && (parentPath st.view_root).isSome
  | none => false

/-! ## Deletion subsystem (`actions.rs`, and the dialog handler of
`ui.rs`) -/

/-- Result of a delete operation (`actions.rs`, `DeleteResult`). -/
inductive DeleteResult where
  | Success
  | ProtectedPath
  | NotFound
  | PermissionDenied (msg : String)
  | Error (msg : String)
deriving DecidableEq

/-- The filesystem as seen by `delete_entry`: which path strings exist,
which of them are directories, and which removals fail (with permission
denial or another error). -/
structure FileSys where
  existing : List String
  dirs : List String
  denied : List String
  failing : List String
deriving DecidableEq

/-- `delete_entry` (`actions.rs` lines 16-44): refuse protected paths, then
missing paths, then attempt removal (recursive for directories) and
classify the outcome.  Returns the result together with the (possibly
updated) filesystem. -/
def delete_entry (fs : FileSys) (p : List String) : DeleteResult × FileSys :=
  if is_protected_path p then (.ProtectedPath, fs)
  else
    let ps := pathString p
    if ¬ fs.existing.contains ps then (.NotFound, fs)
    else if fs.denied.contains ps then
      (.PermissionDenied ("permission denied: " ++ ps), fs)
    else if fs.failing.contains ps then
      (.Error ("io error: " ++ ps), fs)
    else if fs.dirs.contains ps then
      let ex2 := fs.existing.filter (fun q => !(q == ps || strStartsWith q (ps ++ "/")))
      (.Success, { fs with existing := ex2 })
    else
      let ex2 := fs.existing.filter (fun q => decide (q ≠ ps))
      (.Success, { fs with existing := ex2 })

/-- The dialog response handler of `show_delete_dialog` (`ui.rs` lines
558-587) applied to a classified delete result: only on `Success` is the
in-memory tree pruned and the segment list rebuilt; every other result
leaves the state untouched. -/
noncomputable def handle_delete_response (st : AppState) (res : DeleteResult)
    (p : List String) : AppState :=
  match res with
  | .Success =>
    let root2 := st.scan_root.map (fun r => (remove_entry_from_tree r p).1)
    rebuild_segments { st with scan_root := root2 }
  | _ => st

/-! ## Basic lemmas about the tree model -/

/-- Strong induction over `DirEntry`: to prove `P e` one may assume `P`
for every child of `e`. -/
theorem DirEntry.strongInd {P : DirEntry → Prop}
    (h : ∀ e, (∀ c ∈ e.children, P c) → P e) : ∀ e, P e := fun e =>
  h e (fun c hc => DirEntry.strongInd h c)
termination_by e => sizeOf e
decreasing_by
  have hlt := List.sizeOf_lt_of_mem hc
  cases e
  simp [DirEntry.children] at hlt ⊢
  omega

/-- `totalListSize` as a mapped sum. -/
theorem totalListSize_eq_sum (cs : List DirEntry) :
    totalListSize cs = (cs.map DirEntry.total_size).sum := by
  induction cs with
  | nil => rfl
  | cons c cs ih => simp [ih]

/-- `sizesValidList` holds exactly when every member is `sizesValid`. -/
theorem sizesValidList_iff_all (cs : List DirEntry) :
    sizesValidList cs = true ↔ ∀ c ∈ cs, sizesValid c = true := by
  induction cs with
  | nil => simp [sizesValidList]
  | cons c cs ih => rw [sizesValidList]; simp [ih]

/-- `sortedOkList` holds exactly when every member is `sortedOk`. -/
theorem sortedOkList_iff_all (cs : List DirEntry) :
    sortedOkList cs = true ↔ ∀ c ∈ cs, sortedOk c = true := by
  induction cs with
  | nil => simp [sortedOkList]
  | cons c cs ih => rw [sortedOkList]; simp [ih]

/-- `wellFormedList` holds exactly when every member is `wellFormed`. -/
theorem wellFormedList_iff_all (cs : List DirEntry) :
    wellFormedList cs = true ↔ ∀ c ∈ cs, wellFormed c = true := by
  induction cs with
  | nil => simp [wellFormedList]
  | cons c cs ih => rw [wellFormedList]; simp [ih]

/-- `hierOkList` holds exactly when every member is `hierOk`. -/
theorem hierOkList_iff_all (cs : List DirEntry) :
    hierOkList cs = true ↔ ∀ c ∈ cs, hierOk c = true := by
  induction cs with
  | nil => simp [hierOkList]
  | cons c cs ih => rw [hierOkList]; simp [ih]

/-! ## The prune operation never reports success through its boolean -/

/-- Auxiliary: the loop of the prune returns `false` whenever each member's
recursive call does. -/
theorem removeLoop_snd_false_aux (cs : List DirEntry) (t : List String)
    (h : ∀ c ∈ cs, (remove_entry_from_tree c t).2 = false) :
    (removeLoop cs t).2 = false := by
  induction cs with
  | nil => rw [removeLoop]
  | cons c cs ih =>
    rw [removeLoop]
    rcases hrc : remove_entry_from_tree c t with ⟨c2, b⟩
    have hb : b = false := by
      have := h c (by simp)
      rwa [hrc] at this
    subst hb
    rcases hrl : removeLoop cs t with ⟨cs2, b2⟩
    have hb2 : b2 = false := by
      have := ih (fun c hc => h c (by simp [hc]))
      rwa [hrl] at this
    subst hb2
    simp

/-- The boolean returned by `remove_entry_from_tree` is always `false`:
the `return true` of the source (`ui.rs` line 597) is dead code, so the
loop never exits early. -/
theorem remove_snd_false : ∀ (e : DirEntry) (t : List String),
    (remove_entry_from_tree e t).2 = false := by
  intro e
  induction e using DirEntry.strongInd with
  | _ e IH =>
    intro t
    cases e with
    | mk p n sz ft cs f =>
      rw [remove_entry_from_tree]
      have hloop : (removeLoop (cs.filter fun c => decide ¬c.path = t) t).2 = false := by
        apply removeLoop_snd_false_aux
        intro c hc
        exact IH c (by simpa using List.mem_of_mem_filter hc) t
      rcases hrl : removeLoop (cs.filter fun c => decide ¬c.path = t) t with ⟨kids2, b⟩
      have hb : b = false := by rwa [hrl] at hloop
      subst hb
      simp [hrl]

/-- With the early exit dead, the loop is just a map of the recursive call
over the retained children. -/
theorem removeLoop_eq_map (cs : List DirEntry) (t : List String) :
    removeLoop cs t = (cs.map (fun c => (remove_entry_from_tree c t).1), false) := by
  induction cs with
  | nil => rw [removeLoop]; rfl
  | cons c cs ih =>
    rw [removeLoop]
    rcases hrc : remove_entry_from_tree c t with ⟨c2, b⟩
    have hb : b = false := by have := remove_snd_false c t; rwa [hrc] at this
    subst hb
    rw [ih]
    simp [hrc]

/-- Closed form of the prune at a node: retain the children whose path is
not the target, recursively prune each survivor, and recompute the size
field from the surviving children's totals. -/
theorem remove_eq (p : List String) (n : String) (sz : Nat) (ft : FileType)
    (cs : List DirEntry) (f : Bool) (t : List String) :
    remove_entry_from_tree (.mk p n sz ft cs f) t =
      (.mk p n
        (totalListSize ((cs.filter fun c => decide ¬c.path = t).map
          (fun c => (remove_entry_from_tree c t).1)))
        ft
        ((cs.filter fun c => decide ¬c.path = t).map
          (fun c => (remove_entry_from_tree c t).1))
        f, false) := by
  rw [remove_entry_from_tree, removeLoop_eq_map]

/-- After a prune, the total size of the result is zero: the prune
unconditionally overwrites every node's `size` with the sum over its
children — zeroing every file — so all rolled-up totals collapse to 0. -/
theorem total_size_remove (e : DirEntry) (t : List String) :
    ((remove_entry_from_tree e t).1).total_size = 0 := by
  induction e using DirEntry.strongInd with
  | _ e IH =>
    cases e with
    | mk p n sz ft cs f =>
      rw [remove_eq]
      have hz : totalListSize ((cs.filter fun c => decide ¬c.path = t).map
          (fun c => (remove_entry_from_tree c t).1)) = 0 := by
        rw [totalListSize_eq_sum, List.map_map]
        apply List.sum_eq_zero
        intro x hx
        rcases List.mem_map.mp hx with ⟨c, hc, hcx⟩
        have hcs : c ∈ cs := by simpa using List.mem_of_mem_filter hc
        simpa [← hcx] using IH c hcs
      cases f <;> simpa using hz

/-- After a prune, the aggregation invariant holds at every node (every
directory's `size` is rewritten to the sum of its children's totals). -/
theorem sizesValid_remove (e : DirEntry) (t : List String) :
    sizesValid (remove_entry_from_tree e t).1 = true := by
  induction e using DirEntry.strongInd with
  | _ e IH =>
    cases e with
    | mk p n sz ft cs f =>
      rw [remove_eq]
      rw [sizesValid]
      rw [Bool.and_eq_true]; refine ⟨?_, ?_⟩
      · cases f <;> simp
      · rw [sizesValidList_iff_all]
        intro c2 hc2
        rcases List.mem_map.mp hc2 with ⟨c, hc, hcx⟩
        have hcs : c ∈ cs := by simpa using List.mem_of_mem_filter hc
        simpa [← hcx] using IH c hcs

/-- `chainDesc` holds whenever all totals are zero. -/
theorem chainDesc_of_zero (l : List DirEntry)
    (h : ∀ c ∈ l, c.total_size = 0) : chainDesc l = true := by
  induction l with
  | nil => rfl
  | cons a l ih =>
    cases l with
    | nil => rfl
    | cons b l' =>
      rw [chainDesc]
      rw [Bool.and_eq_true]; refine ⟨?_, ?_⟩
      · simp [h a (by simp), h b (by simp)]
      · exact ih (fun c hc => h c (by simp [List.mem_cons] at hc ⊢; tauto))

/-- After a prune, the size-descending order of children holds at every
node (vacuously: all totals are zero). -/
theorem sortedOk_remove (e : DirEntry) (t : List String) :
    sortedOk (remove_entry_from_tree e t).1 = true := by
  induction e using DirEntry.strongInd with
  | _ e IH =>
    cases e with
    | mk p n sz ft cs f =>
      rw [remove_eq]
      rw [sortedOk]
      rw [Bool.and_eq_true]; refine ⟨?_, ?_⟩
      · apply chainDesc_of_zero
        intro c2 hc2
        rcases List.mem_map.mp hc2 with ⟨c, hc, hcx⟩
        simpa [← hcx] using total_size_remove c t
      · rw [sortedOkList_iff_all]
        intro c2 hc2
        rcases List.mem_map.mp hc2 with ⟨c, hc, hcx⟩
        have hcs : c ∈ cs := by simpa using List.mem_of_mem_filter hc
        simpa [← hcx] using IH c hcs

/-- After a prune, file nodes still have no children. -/
theorem wellFormed_remove (e : DirEntry) (t : List String)
    (h : wellFormed e = true) :
    wellFormed (remove_entry_from_tree e t).1 = true := by
  induction e using DirEntry.strongInd with
  | _ e IH =>
    cases e with
    | mk p n sz ft cs f =>
      rw [wellFormed] at h
      rw [Bool.and_eq_true] at h
      rcases h with ⟨h1, h2⟩
      rw [remove_eq]
      rw [wellFormed]
      rw [Bool.and_eq_true]; refine ⟨?_, ?_⟩
      · cases f with
        | false => simp
        | true =>
          have : cs.isEmpty = true := by simpa using h1
          rcases cs with _ | ⟨c, cs⟩
          · simp
          · simp at this
      · rw [wellFormedList_iff_all]
        intro c2 hc2
        rcases List.mem_map.mp hc2 with ⟨c, hc, hcx⟩
        have hcs : c ∈ cs := by simpa using List.mem_of_mem_filter hc
        have := IH c hcs ((wellFormedList_iff_all cs).mp h2 c hcs)
        simpa [← hcx] using this

/-! ## Sorting lemmas -/

/-- The descending-by-`total_size` comparator used by `sort_by_size`. -/
def descBySize (a b : DirEntry) : Bool := decide (b.total_size ≤ a.total_size)

/-- `sortChildren` is a map of `sort_by_size`. -/
theorem sortChildren_eq_map (cs : List DirEntry) :
    sortChildren cs = cs.map DirEntry.sort_by_size := by
  induction cs with
  | nil => rw [sortChildren]; rfl
  | cons c cs ih => rw [sortChildren, ih]; rfl

/-- Closed form of `sort_by_size` at a node. -/
theorem sort_by_size_eq (p : List String) (n : String) (sz : Nat)
    (ft : FileType) (cs : List DirEntry) (f : Bool) :
    (DirEntry.mk p n sz ft cs f).sort_by_size =
      .mk p n sz ft ((cs.mergeSort descBySize).map DirEntry.sort_by_size) f := by
  rw [DirEntry.sort_by_size, sortChildren_eq_map]; rfl

/-- Sorting never changes rolled-up totals. -/
theorem total_size_sort (e : DirEntry) :
    e.sort_by_size.total_size = e.total_size := by
  induction e using DirEntry.strongInd with
  | _ e IH =>
    cases e with
    | mk p n sz ft cs f =>
      rw [sort_by_size_eq]
      cases f with
      | true => simp
      | false =>
        simp only [total_size_mk, if_neg (by simp : ¬(false = true))]
        rw [totalListSize_eq_sum, totalListSize_eq_sum, List.map_map]
        have h1 : ∀ c ∈ cs.mergeSort descBySize,
            (DirEntry.total_size ∘ DirEntry.sort_by_size) c = DirEntry.total_size c := by
          intro c hc
          exact IH c (by simpa using List.mem_mergeSort.mp hc)
        rw [List.map_congr_left h1]
        exact ((List.mergeSort_perm cs descBySize).map DirEntry.total_size).sum_eq

/-- Sorting preserves the aggregation invariant. -/
theorem sizesValid_sort (e : DirEntry) (h : sizesValid e = true) :
    sizesValid e.sort_by_size = true := by
  induction e using DirEntry.strongInd with
  | _ e IH =>
    cases e with
    | mk p n sz ft cs f =>
      rw [sizesValid, Bool.and_eq_true] at h
      rcases h with ⟨h1, h2⟩
      rw [sort_by_size_eq, sizesValid, Bool.and_eq_true]
      have htot : totalListSize ((cs.mergeSort descBySize).map DirEntry.sort_by_size) =
          totalListSize cs := by
        rw [totalListSize_eq_sum, totalListSize_eq_sum, List.map_map]
        have hc1 : ∀ c ∈ cs.mergeSort descBySize,
            (DirEntry.total_size ∘ DirEntry.sort_by_size) c = DirEntry.total_size c :=
          fun c _ => total_size_sort c
        rw [List.map_congr_left hc1]
        exact ((List.mergeSort_perm cs descBySize).map DirEntry.total_size).sum_eq
      refine ⟨?_, ?_⟩
      · cases f with
        | true => simp
        | false => simp only [htot]; simpa using h1
      · rw [sizesValidList_iff_all]
        intro c2 hc2
        rcases List.mem_map.mp hc2 with ⟨c, hc, hcx⟩
        have hcs : c ∈ cs := by simpa using List.mem_mergeSort.mp hc
        have hcv : sizesValid c = true := (sizesValidList_iff_all cs).mp h2 c hcs
        simpa [← hcx] using IH c hcs hcv

/-- A pairwise size-descending list, mapped through `sort_by_size`,
satisfies `chainDesc`. -/
theorem chainDesc_map_sort (l : List DirEntry)
    (hp : List.Pairwise (fun a b => b.total_size ≤ a.total_size) l) :
    chainDesc (l.map DirEntry.sort_by_size) = true := by
  induction l with
  | nil => rfl
  | cons a l ih =>
    cases l with
    | nil => rfl
    | cons b l' =>
      rw [List.map_cons, List.map_cons, chainDesc, Bool.and_eq_true]
      rcases List.pairwise_cons.mp hp with ⟨hab, hrest⟩
      refine ⟨?_, ?_⟩
      · simp [total_size_sort, hab b (by simp)]
      · have := ih hrest
        simpa using this

/-- `sort_by_size` establishes the size-descending order at every node. -/
theorem sortedOk_sort (e : DirEntry) : sortedOk e.sort_by_size = true := by
  induction e using DirEntry.strongInd with
  | _ e IH =>
    cases e with
    | mk p n sz ft cs f =>
      rw [sort_by_size_eq, sortedOk, Bool.and_eq_true]
      refine ⟨?_, ?_⟩
      · apply chainDesc_map_sort
        have hpw := @List.sorted_mergeSort DirEntry descBySize
          (fun a b c hab hbc => by
            simp only [descBySize, decide_eq_true_eq] at *
            omega)
          (fun a b => by
            simp only [descBySize, Bool.or_eq_true, decide_eq_true_eq]
            omega)
          cs
        refine hpw.imp ?_
        intro a b hab
        simpa [descBySize] using hab
      · rw [sortedOkList_iff_all]
        intro c2 hc2
        rcases List.mem_map.mp hc2 with ⟨c, hc, hcx⟩
        have hcs : c ∈ cs := by simpa using List.mem_mergeSort.mp hc
        simpa [← hcx] using IH c hcs

/-! ## Scanner lemmas -/

/-- Every message emitted by the `build_entry` loop is an `ItemCount`. -/
theorem loudChildren_msgs (base : List String) (items : List (String × FsNode)) :
    ∀ (count : Nat), ∀ m ∈ (loudChildren base items count).2.1,
      ∃ k, m = ScanProgress.ItemCount k := by
  induction items with
  | nil => intro count m hm; rw [loudChildren] at hm; simp at hm
  | cons it rest ih =>
    rcases it with ⟨nm, item⟩
    intro count m hm
    have hmsgs1 : ∀ m ∈ (if (count + 1) % 100 = 0 then
        [ScanProgress.ItemCount (count + 1)] else ([] : List ScanProgress)),
        ∃ k, m = ScanProgress.ItemCount k := by
      intro m hm
      by_cases h : (count + 1) % 100 = 0
      · rw [if_pos h] at hm
        simp at hm
        exact ⟨count + 1, hm⟩
      · rw [if_neg h] at hm
        simp at hm
    cases item with
    | unreadable =>
      rw [loudChildren] at hm
      rcases hrec : loudChildren base rest (count + 1) with ⟨kids, msgs, c2⟩
      rw [hrec] at hm
      simp only [List.mem_append] at hm
      rcases hm with hm | hm
      · exact hmsgs1 m hm
      · have := ih (count + 1) m; rw [hrec] at this; exact this hm
    | symlink =>
      rw [loudChildren] at hm
      rcases hrec : loudChildren base rest (count + 1) with ⟨kids, msgs, c2⟩
      rw [hrec] at hm
      simp only [List.mem_append] at hm
      rcases hm with hm | hm
      · exact hmsgs1 m hm
      · have := ih (count + 1) m; rw [hrec] at this; exact this hm
    | file sz =>
      rw [loudChildren] at hm
      rcases hrec : loudChildren base rest (count + 1) with ⟨kids, msgs, c2⟩
      rw [hrec] at hm
      simp only [List.mem_append] at hm
      rcases hm with hm | hm
      · exact hmsgs1 m hm
      · have := ih (count + 1) m; rw [hrec] at this; exact this hm
    | dir readable entries =>
      rw [loudChildren] at hm
      by_cases hv : is_virtual_fs (base ++ [nm]) = true
      · rw [if_pos hv] at hm
        rcases hrec : loudChildren base rest (count + 1) with ⟨kids, msgs, c2⟩
        rw [hrec] at hm
        simp only [List.mem_append] at hm
        rcases hm with hm | hm
        · exact hmsgs1 m hm
        · have := ih (count + 1) m; rw [hrec] at this; exact this hm
      · rw [if_neg hv] at hm
        rcases hq : build_entry_quiet (base ++ [nm]) (.dir readable entries) (count + 1) with
          ⟨res, c2⟩
        rw [hq] at hm
        cases res with
        | ok child =>
          dsimp only at hm
          rcases hrec : loudChildren base rest c2 with ⟨kids, msgs, c3⟩
          rw [hrec] at hm
          simp only [List.mem_append] at hm
          rcases hm with hm | hm
          · exact hmsgs1 m hm
          · have := ih c2 m; rw [hrec] at this; exact this hm
        | error msg =>
          dsimp only at hm
          rcases hrec : loudChildren base rest c2 with ⟨kids, msgs, c3⟩
          rw [hrec] at hm
          simp only [List.mem_append] at hm
          rcases hm with hm | hm
          · exact hmsgs1 m hm
          · have := ih c2 m; rw [hrec] at this; exact this hm

/-- Every message emitted by `build_entry` is an `ItemCount`. -/
theorem build_entry_msgs (p : List String) (n : FsNode) (count : Nat) :
    ∀ m ∈ (build_entry p n count).2.1, ∃ k, m = ScanProgress.ItemCount k := by
  intro m hm
  cases n with
  | unreadable => rw [build_entry] at hm; simp at hm
  | symlink => rw [build_entry] at hm; simp at hm
  | file sz => rw [build_entry] at hm; simp at hm
  | dir readable entries =>
    rw [build_entry] at hm
    by_cases hr : readable = true
    · rw [if_pos hr] at hm
      rcases hl : loudChildren p entries count with ⟨kids, msgs, c2⟩
      rw [hl] at hm
      have := loudChildren_msgs p entries count m
      rw [hl] at this
      exact this hm
    · rw [if_neg hr] at hm
      simp at hm

/-- A fresh file entry satisfies the aggregation invariant. -/
theorem sizesValid_new_file (p : List String) (sz : Nat) :
    sizesValid (DirEntry.new_file p sz) = true := by
  rw [DirEntry.new_file]
  rw [sizesValid]
  simp [sizesValidList]

/-- A fresh (empty) directory entry satisfies the aggregation invariant. -/
theorem sizesValid_new_dir (p : List String) :
    sizesValid (DirEntry.new_dir p) = true := by
  rw [DirEntry.new_dir]
  rw [sizesValid]
  simp [sizesValidList]

/-- Joint size-bounded statement: every tree built by `build_entry_quiet`
(and every list built by its loop) satisfies the aggregation invariant. -/
theorem quiet_valid_pair : ∀ k : Nat,
    (∀ (p : List String) (n : FsNode) (c : Nat), sizeOf n ≤ k →
      ∀ e, (build_entry_quiet p n c).1 = Except.ok e → sizesValid e = true) ∧
    (∀ (base : List String) (items : List (String × FsNode)) (c : Nat),
      sizeOf items ≤ k → sizesValidList (quietChildren base items c).1 = true) := by
  intro k
  induction k using Nat.strong_induction_on with
  | _ k IH =>
    constructor
    · intro p n c hk e he
      rw [build_entry_quiet.eq_def] at he
      by_cases hv : is_virtual_fs p = true
      · rw [if_pos hv] at he
        simp at he
        subst he
        exact sizesValid_new_dir p
      · rw [if_neg hv] at he
        cases n with
        | unreadable => dsimp only at he; simp at he
        | file sz =>
          dsimp only at he
          simp at he
          subst he
          exact sizesValid_new_file p sz
        | symlink =>
          dsimp only at he
          simp at he
          subst he
          exact sizesValid_new_dir p
        | dir readable entries =>
          dsimp only at he
          have hlt : sizeOf entries < k := by
            have : sizeOf entries < sizeOf (FsNode.dir readable entries) := by
              simp only [FsNode.dir.sizeOf_spec]; omega
            omega
          by_cases hr : readable = true
          · rw [if_pos hr] at he
            rcases hq : quietChildren p entries c with ⟨kids, c2⟩
            rw [hq] at he
            dsimp only at he
            simp at he
            subst he
            rw [sizesValid, Bool.and_eq_true]
            refine ⟨by simp, ?_⟩
            have := (IH (sizeOf entries) hlt).2 p entries c le_rfl
            rwa [hq] at this
          · rw [if_neg hr] at he
            simp at he
            subst he
            exact sizesValid_new_dir p
    · intro base items c hk
      cases items with
      | nil => rw [quietChildren]; rfl
      | cons it rest =>
        rcases it with ⟨nm, item⟩
        have hrest_lt : sizeOf rest < k := by
          have : sizeOf rest < sizeOf ((nm, item) :: rest) := by
            simp only [List.cons.sizeOf_spec, Prod.mk.sizeOf_spec]; omega
          omega
        have hitem_lt : sizeOf item < k := by
          have : sizeOf item < sizeOf ((nm, item) :: rest) := by
            simp only [List.cons.sizeOf_spec, Prod.mk.sizeOf_spec]; omega
          omega
        cases item with
        | unreadable =>
          rw [quietChildren]
          exact (IH (sizeOf rest) hrest_lt).2 base rest (c + 1) le_rfl
        | symlink =>
          rw [quietChildren]
          exact (IH (sizeOf rest) hrest_lt).2 base rest (c + 1) le_rfl
        | file sz =>
          rw [quietChildren]
          rcases hq : quietChildren base rest (c + 1) with ⟨kids, c2⟩
          dsimp only
          rw [sizesValidList, Bool.and_eq_true]
          refine ⟨sizesValid_new_file _ sz, ?_⟩
          have := (IH (sizeOf rest) hrest_lt).2 base rest (c + 1) le_rfl
          rwa [hq] at this
        | dir readable entries =>
          rw [quietChildren]
          by_cases hv : is_virtual_fs (base ++ [nm]) = true
          · rw [if_pos hv]
            exact (IH (sizeOf rest) hrest_lt).2 base rest (c + 1) le_rfl
          · rw [if_neg hv]
            rcases hq : build_entry_quiet (base ++ [nm]) (.dir readable entries) (c + 1) with
              ⟨res, c2⟩
            cases res with
            | ok child =>
              dsimp only
              rcases hr2 : quietChildren base rest c2 with ⟨kids, c3⟩
              dsimp only
              rw [sizesValidList, Bool.and_eq_true]
              constructor
              · exact (IH (sizeOf (FsNode.dir readable entries)) hitem_lt).1
                  (base ++ [nm]) (.dir readable entries) (c + 1) le_rfl child
                  (by rw [hq])
              · have := (IH (sizeOf rest) hrest_lt).2 base rest c2 le_rfl
                rwa [hr2] at this
            | error msg =>
              dsimp only
              exact (IH (sizeOf rest) hrest_lt).2 base rest c2 le_rfl

/-- Every tree returned by `build_entry_quiet` satisfies the aggregation
invariant. -/
theorem build_entry_quiet_valid (p : List String) (n : FsNode) (c : Nat)
    (e : DirEntry) (h : (build_entry_quiet p n c).1 = Except.ok e) :
    sizesValid e = true :=
  (quiet_valid_pair (sizeOf n)).1 p n c le_rfl e h

/-- Every list built by the `build_entry` loop satisfies the aggregation
invariant. -/
theorem loudChildren_valid (base : List String)
    (items : List (String × FsNode)) :
    ∀ (c : Nat), sizesValidList (loudChildren base items c).1 = true := by
  induction items with
  | nil => intro c; rw [loudChildren]; rfl
  | cons it rest ih =>
    rcases it with ⟨nm, item⟩
    intro c
    cases item with
    | unreadable =>
      rw [loudChildren]
      rcases hrec : loudChildren base rest (c + 1) with ⟨kids, msgs, c2⟩
      have := ih (c + 1); rw [hrec] at this
      exact this
    | symlink =>
      rw [loudChildren]
      rcases hrec : loudChildren base rest (c + 1) with ⟨kids, msgs, c2⟩
      have := ih (c + 1); rw [hrec] at this
      exact this
    | file sz =>
      rw [loudChildren]
      rcases hrec : loudChildren base rest (c + 1) with ⟨kids, msgs, c2⟩
      have := ih (c + 1); rw [hrec] at this
      dsimp only
      rw [sizesValidList, Bool.and_eq_true]
      exact ⟨sizesValid_new_file _ sz, this⟩
    | dir readable entries =>
      rw [loudChildren]
      by_cases hv : is_virtual_fs (base ++ [nm]) = true
      · rw [if_pos hv]
        rcases hrec : loudChildren base rest (c + 1) with ⟨kids, msgs, c2⟩
        have := ih (c + 1); rw [hrec] at this
        exact this
      · rw [if_neg hv]
        rcases hq : build_entry_quiet (base ++ [nm]) (.dir readable entries) (c + 1) with
          ⟨res, c2⟩
        cases res with
        | ok child =>
          dsimp only
          rcases hrec : loudChildren base rest c2 with ⟨kids, msgs, c3⟩
          have := ih c2; rw [hrec] at this
          dsimp only
          rw [sizesValidList, Bool.and_eq_true]
          exact ⟨build_entry_quiet_valid _ _ _ _ (by rw [hq]), this⟩
        | error msg =>
          dsimp only
          rcases hrec : loudChildren base rest c2 with ⟨kids, msgs, c3⟩
          have := ih c2; rw [hrec] at this
          exact this

/-- Every tree returned by `build_entry` satisfies the aggregation
invariant: the scanner computes each directory's `size` as the sum of its
children's rolled-up totals. -/
theorem build_entry_valid (p : List String) (n : FsNode) (c : Nat)
    (e : DirEntry) (h : (build_entry p n c).1 = Except.ok e) :
    sizesValid e = true := by
  cases n with
  | unreadable => rw [build_entry] at h; simp at h
  | symlink => rw [build_entry] at h; simp at h
  | file sz =>
    rw [build_entry] at h
    simp at h
    subst h
    exact sizesValid_new_file p sz
  | dir readable entries =>
    rw [build_entry] at h
    by_cases hr : readable = true
    · rw [if_pos hr] at h
      rcases hl : loudChildren p entries c with ⟨kids, msgs, c2⟩
      rw [hl] at h
      dsimp only at h
      simp at h
      subst h
      rw [sizesValid, Bool.and_eq_true]
      refine ⟨by simp, ?_⟩
      have := loudChildren_valid p entries c
      rwa [hl] at this
    · rw [if_neg hr] at h
      simp at h

/-- The trace of one scan, in closed form: the root `Scanning` message
first, then the `ItemCount` messages of the walk, then the single terminal
message. -/
theorem scan_recursive_eq (p : List String) (n : FsNode) :
    scan_recursive p n =
      ScanProgress.Scanning (pathString p) ::
        ((build_entry p n 1).2.1 ++
          [match (build_entry p n 1).1 with
           | .ok e => ScanProgress.Complete e.sort_by_size
           | .error msg => ScanProgress.Error msg]) := by
  rw [scan_recursive]
  rcases hb : build_entry p n 1 with ⟨res, msgs, c⟩
  cases res with
  | ok e => simp
  | error msg => simp

/-- If a `Complete e` message appears in a scan trace then `e` is the
sorted tree built by `build_entry` (and the terminal message). -/
theorem complete_mem_scan (p : List String) (n : FsNode) (e : DirEntry)
    (h : ScanProgress.Complete e ∈ scan_recursive p n) :
    ∃ e0, (build_entry p n 1).1 = Except.ok e0 ∧ e = e0.sort_by_size := by
  rw [scan_recursive_eq] at h
  rcases List.mem_cons.mp h with h | h
  · exact absurd h (by simp)
  · rcases List.mem_append.mp h with h | h
    · rcases build_entry_msgs p n 1 _ h with ⟨k, hk⟩
      simp at hk
    · simp only [List.mem_singleton] at h
      rcases hb : (build_entry p n 1).1 with e0 | e0
      · rw [hb] at h
        simp at h
      · rw [hb] at h
        simp at h
        exact ⟨e0, rfl, h⟩

/-! ## Navigation lemmas -/

/-- If every entry of a list misses the target, so does the list search. -/
theorem findListByPath_none (cs : List DirEntry) (q : List String)
    (h : ∀ c ∈ cs, c.find_by_path q = none) : findListByPath cs q = none := by
  induction cs with
  | nil => rw [findListByPath]
  | cons c cs ih =>
    rw [findListByPath]
    rcases hf : c.find_by_path q with _ | r
    · exact ih (fun c hc => h c (by simp [hc]))
    · exact absurd hf (by simp [h c (by simp)])

/-- In a tree satisfying the path-hierarchy invariant, every node's path is
at least as long as the root's, so a strictly shorter target is never
found. -/
theorem find_by_path_none_of_short (e : DirEntry) :
    hierOk e = true → ∀ q : List String, q.length < e.path.length →
      e.find_by_path q = none := by
  induction e using DirEntry.strongInd with
  | _ e IH =>
    intro hh q hq
    cases e with
    | mk p n sz ft cs f =>
      rw [DirEntry.find_by_path]
      rw [if_neg (by
        intro hpq
        simp only [DirEntry.path_mk] at hpq hq
        rw [hpq] at hq
        omega)]
      apply findListByPath_none
      intro c hc
      rw [hierOk, Bool.and_eq_true] at hh
      rcases hh with ⟨h1, h2⟩
      have hcp : c.path = p ++ [c.name] := by
        have := List.all_eq_true.mp h1 c hc
        simpa using this
      have hch : hierOk c = true := (hierOkList_iff_all cs).mp h2 c hc
      apply IH c (by simpa using hc) hch
      rw [hcp]
      simp only [DirEntry.path_mk, List.length_append, List.length_singleton] at hq ⊢
      omega

/-! ## Sunburst layout invariants -/

/-- The minimum rendering angle is positive. -/
theorem MIN_ANGLE_pos : (0 : ℝ) < MIN_ANGLE := by rw [MIN_ANGLE]; norm_num

/-- Ordered disjointness: two segments on the same ring have ordered,
non-overlapping angular intervals. -/
def segOrdered (s t : Segment) : Prop :=
  s.depth = t.depth → s.end_angle ≤ t.start_angle

/-- Joint size-bounded invariant of the layout recursion: every emitted
segment lies at ring `d` or deeper, its angular interval is well-formed and
contained in the span the invocation was granted, and the emitted list is
pairwise ordered-disjoint per ring. -/
theorem seg_inv_pair : ∀ k : Nat,
    (∀ (e : DirEntry) (d : Nat) (a b : ℝ) (tot maxd : Nat), sizeOf e ≤ k →
      0 < tot → 0 ≤ b - a → totalListSize e.children ≤ tot →
      ((∀ s ∈ build_segments_recursive e d a b tot maxd,
        d ≤ s.depth ∧ a ≤ s.start_angle ∧ s.start_angle ≤ s.end_angle ∧
          s.end_angle ≤ a + (totalListSize e.children : ℝ) / (tot : ℝ) * (b - a)) ∧
      List.Pairwise segOrdered (build_segments_recursive e d a b tot maxd))) ∧
    (∀ (cs : List DirEntry) (d : Nat) (cur range : ℝ) (tot maxd : Nat),
      sizeOf cs ≤ k →
      0 < tot → 0 ≤ range → totalListSize cs ≤ tot →
      ((∀ s ∈ segLoop cs d cur range tot maxd,
        d ≤ s.depth ∧ cur ≤ s.start_angle ∧ s.start_angle ≤ s.end_angle ∧
          s.end_angle ≤ cur + (totalListSize cs : ℝ) / (tot : ℝ) * range) ∧
      List.Pairwise segOrdered (segLoop cs d cur range tot maxd))) := by
  intro k
  induction k using Nat.strong_induction_on with
  | _ k IH =>
    constructor
    · intro e d a b tot maxd hk htot hba hsum
      rw [build_segments_recursive]
      by_cases hd : d > maxd
      · rw [if_pos hd]
        exact ⟨by simp, by simp⟩
      · rw [if_neg hd]
        have hlt : sizeOf e.children < k := by
          have h1 : sizeOf e.children < sizeOf e := by
            cases e
            simp only [DirEntry.children_mk, DirEntry.mk.sizeOf_spec]
            omega
          omega
        exact (IH (sizeOf e.children) hlt).2 e.children d a (b - a) tot maxd
          le_rfl htot hba hsum
    · intro cs d cur range tot maxd hk htot hrange hsum
      cases cs with
      | nil =>
        rw [segLoop]
        exact ⟨by simp, by simp⟩
      | cons child rest =>
        have hrest_lt : sizeOf rest < k := by
          have : sizeOf rest < sizeOf (child :: rest) := by
            simp only [List.cons.sizeOf_spec]; omega
          omega
        have hchild_lt : sizeOf child < k := by
          have : sizeOf child < sizeOf (child :: rest) := by
            simp only [List.cons.sizeOf_spec]; omega
          omega
        have htot0 : (0 : ℝ) < (tot : ℝ) := by exact_mod_cast htot
        have hrestSum_le : totalListSize rest ≤ tot := by
          have := hsum
          rw [totalListSize_cons] at this
          omega
        have hconsR : (totalListSize (child :: rest) : ℝ) =
            (child.total_size : ℝ) + (totalListSize rest : ℝ) := by
          rw [totalListSize_cons]
          push_cast
          ring
        rw [segLoop]
        by_cases hz : child.total_size = 0
        · rw [if_pos hz]
          have hres := (IH _ hrest_lt).2 rest d cur range tot maxd le_rfl htot
            hrange hrestSum_le
          refine ⟨?_, hres.2⟩
          intro s hs
          rcases hres.1 s hs with ⟨hd1, h2, h3, h4⟩
          refine ⟨hd1, h2, h3, ?_⟩
          have hEq : (totalListSize (child :: rest) : ℝ) = (totalListSize rest : ℝ) := by
            rw [hconsR, hz]
            simp
          rw [hEq]
          exact h4
        · rw [if_neg hz]
          dsimp only
          have hca_nonneg : 0 ≤ (child.total_size : ℝ) / (tot : ℝ) * range := by
            positivity
          by_cases hlt : (child.total_size : ℝ) / (tot : ℝ) * range < MIN_ANGLE
          · rw [if_pos hlt]
            have hres := (IH _ hrest_lt).2 rest d cur range tot maxd le_rfl htot
              hrange hrestSum_le
            refine ⟨?_, hres.2⟩
            intro s hs
            rcases hres.1 s hs with ⟨hd1, h2, h3, h4⟩
            refine ⟨hd1, h2, h3, ?_⟩
            have : cur + (totalListSize rest : ℝ) / (tot : ℝ) * range ≤
                cur + (totalListSize (child :: rest) : ℝ) / (tot : ℝ) * range := by
              rw [hconsR]
              have : (child.total_size : ℝ) / (tot : ℝ) * range ≥ 0 := hca_nonneg
              have hexp : ((child.total_size : ℝ) + (totalListSize rest : ℝ)) / (tot : ℝ) * range =
                  (child.total_size : ℝ) / (tot : ℝ) * range +
                  (totalListSize rest : ℝ) / (tot : ℝ) * range := by
                ring
              rw [hexp]
              linarith
            linarith
          · rw [if_neg hlt]
            have hMIN : MIN_ANGLE ≤ (child.total_size : ℝ) / (tot : ℝ) * range :=
              not_lt.mp hlt
            have hca_pos : 0 < (child.total_size : ℝ) / (tot : ℝ) * range :=
              lt_of_lt_of_le MIN_ANGLE_pos hMIN
            have hrest := (IH _ hrest_lt).2 rest d
              (cur + (child.total_size : ℝ) / (tot : ℝ) * range) range tot maxd
              le_rfl htot hrange hrestSum_le
            have hrecFacts :
                (∀ s ∈ (if !child.is_file && !child.children.isEmpty then
                    build_segments_recursive child (d + 1) cur
                      (cur + (child.total_size : ℝ) / (tot : ℝ) * range)
                      child.total_size maxd
                  else []),
                  (d + 1) ≤ s.depth ∧ cur ≤ s.start_angle ∧
                    s.start_angle ≤ s.end_angle ∧
                    s.end_angle ≤ cur + (child.total_size : ℝ) / (tot : ℝ) * range) ∧
                List.Pairwise segOrdered
                  (if !child.is_file && !child.children.isEmpty then
                    build_segments_recursive child (d + 1) cur
                      (cur + (child.total_size : ℝ) / (tot : ℝ) * range)
                      child.total_size maxd
                  else []) := by
              by_cases hgc : (!child.is_file && !child.children.isEmpty) = true
              · rw [if_pos hgc]
                have hfile : child.is_file = false := by
                  rw [Bool.and_eq_true] at hgc
                  rcases hgc with ⟨h1, _⟩
                  simpa using h1
                have heq : totalListSize child.children = child.total_size := by
                  cases child with
                  | mk cp cn csz cft ccs cf =>
                    simp only [DirEntry.is_file_mk] at hfile
                    subst hfile
                    simp
                have h0 : 0 < child.total_size := Nat.pos_of_ne_zero hz
                have hch := (IH _ hchild_lt).1 child (d + 1) cur
                  (cur + (child.total_size : ℝ) / (tot : ℝ) * range)
                  child.total_size maxd le_rfl h0 (by linarith) (by rw [heq])
                have hone : (totalListSize child.children : ℝ) /
                    (child.total_size : ℝ) = 1 := by
                  rw [heq]
                  exact div_self (by exact_mod_cast hz)
                refine ⟨?_, hch.2⟩
                intro s hs
                rcases hch.1 s hs with ⟨hd1, h2, h3, h4⟩
                refine ⟨hd1, h2, h3, ?_⟩
                rw [hone] at h4
                linarith
              · rw [if_neg hgc]
                exact ⟨by simp, by simp⟩
            constructor
            · intro s hs
              rcases List.mem_cons.mp hs with hs | hs
              · subst hs
                refine ⟨le_rfl, le_rfl, by simp; linarith, ?_⟩
                simp only []
                rw [hconsR]
                have hrnn : 0 ≤ (totalListSize rest : ℝ) / (tot : ℝ) * range := by
                  positivity
                have hexp : ((child.total_size : ℝ) + (totalListSize rest : ℝ)) / (tot : ℝ) * range =
                    (child.total_size : ℝ) / (tot : ℝ) * range +
                    (totalListSize rest : ℝ) / (tot : ℝ) * range := by
                  ring
                rw [hexp]
                linarith
              · rcases List.mem_append.mp hs with hs | hs
                · rcases hrecFacts.1 s hs with ⟨hd1, h2, h3, h4⟩
                  refine ⟨by omega, h2, h3, ?_⟩
                  rw [hconsR]
                  have hrnn : 0 ≤ (totalListSize rest : ℝ) / (tot : ℝ) * range := by
                    positivity
                  have hexp : ((child.total_size : ℝ) + (totalListSize rest : ℝ)) / (tot : ℝ) * range =
                      (child.total_size : ℝ) / (tot : ℝ) * range +
                      (totalListSize rest : ℝ) / (tot : ℝ) * range := by
                    ring
                  rw [hexp]
                  linarith
                · rcases hrest.1 s hs with ⟨hd1, h2, h3, h4⟩
                  refine ⟨hd1, by linarith, h3, ?_⟩
                  rw [hconsR]
                  have hexp : ((child.total_size : ℝ) + (totalListSize rest : ℝ)) / (tot : ℝ) * range =
                      (child.total_size : ℝ) / (tot : ℝ) * range +
                      (totalListSize rest : ℝ) / (tot : ℝ) * range := by
                    ring
                  rw [hexp]
                  linarith
            · rw [List.pairwise_cons]
              constructor
              · intro t ht
                rcases List.mem_append.mp ht with ht | ht
                · intro hdep
                  have := (hrecFacts.1 t ht).1
                  simp only [] at hdep
                  omega
                · intro _
                  have := (hrest.1 t ht).2.1
                  simpa using this
              · rw [List.pairwise_append]
                refine ⟨hrecFacts.2, hrest.2, ?_⟩
                intro x hx y hy _
                have hxe := (hrecFacts.1 x hx).2.2.2
                have hys := (hrest.1 y hy).2.1
                linarith

/-- Symmetric disjointness of segments on a common ring. -/
def segDisjoint (s t : Segment) : Prop :=
  s.depth = t.depth → s.end_angle ≤ t.start_angle ∨ t.end_angle ≤ s.start_angle

/-- `segOrdered` implies `segDisjoint`. -/
theorem segOrdered.disjoint {s t : Segment} (h : segOrdered s t) :
    segDisjoint s t := fun hd => Or.inl (h hd)

/-- `segDisjoint` is symmetric. -/
theorem segDisjoint_symm : Symmetric segDisjoint := by
  intro s t h hd
  exact (h hd.symm).symm

/-- On a well-formed tree, the full segment list built by `build_segments`
is pairwise disjoint per ring. -/
theorem build_segments_pairwise (root : DirEntry) (maxd : Nat)
    (hwf : wellFormed root = true) :
    List.Pairwise segDisjoint (build_segments root maxd) := by
  rw [build_segments]
  by_cases h0 : root.total_size = 0
  · rw [if_pos h0]
    simp
  · rw [if_neg h0]
    have htot : 0 < root.total_size := Nat.pos_of_ne_zero h0
    have hsum : totalListSize root.children ≤ root.total_size := by
      cases root with
      | mk p n sz ft cs f =>
        cases f with
        | true =>
          rw [wellFormed, Bool.and_eq_true] at hwf
          rcases hwf with ⟨h1, _⟩
          have : cs.isEmpty = true := by simpa using h1
          rcases cs with _ | _
          · simp
          · simp at this
        | false => simp
    have hba : (0 : ℝ) ≤ 2 * Real.pi - 0 := by
      have := Real.pi_pos
      linarith
    have hpair := (seg_inv_pair (sizeOf root)).1 root 1 0 (2 * Real.pi)
      root.total_size maxd le_rfl htot hba hsum
    rw [List.pairwise_cons]
    constructor
    · intro t ht hdep
      have h1 := (hpair.1 t ht).1
      simp only [] at hdep
      omega
    · exact hpair.2.imp segOrdered.disjoint

/-- The summed angular span of the ring-`d` segments of a list. -/
noncomputable def spanSum (L : List Segment) (d : Nat) : ℝ :=
  ((L.filter (fun s => s.depth == d)).map
    (fun s => s.end_angle - s.start_angle)).sum

@[simp] theorem spanSum_nil (d : Nat) : spanSum [] d = 0 := by
  simp [spanSum]

/-- `spanSum` distributes over append. -/
theorem spanSum_append (L1 L2 : List Segment) (d : Nat) :
    spanSum (L1 ++ L2) d = spanSum L1 d + spanSum L2 d := by
  simp [spanSum, List.filter_append]

/-- A list with no ring-`d` segment contributes no span. -/
theorem spanSum_eq_zero (L : List Segment) (d : Nat)
    (h : ∀ s ∈ L, ¬s.depth = d) : spanSum L d = 0 := by
  rw [spanSum]
  have : L.filter (fun s => s.depth == d) = [] := by
    rw [List.filter_eq_nil_iff]
    intro s hs
    simpa using h s hs
  rw [this]
  simp

open Classical in
/-- The total size of the surviving (emitted) children of one subdivision:
children that are nonzero and whose proportional span reaches `MIN_ANGLE`. -/
noncomputable def survSize (cs : List DirEntry) (tot : Nat) (range : ℝ) : Nat :=
  match cs with
  | [] => 0
  | c :: rest =>
    if c.total_size = 0 then survSize rest tot range
    else if (c.total_size : ℝ) / (tot : ℝ) * range < MIN_ANGLE then
      survSize rest tot range
    else c.total_size + survSize rest tot range

/-- The ring-`d` span emitted by one subdivision loop is exactly the
surviving size as a fraction of the invocation total, times the granted
range. -/
theorem spanSum_segLoop (cs : List DirEntry) (d : Nat) (range : ℝ)
    (tot maxd : Nat) (htot : 0 < tot) (hrange : 0 ≤ range) :
    ∀ cur : ℝ, spanSum (segLoop cs d cur range tot maxd) d =
      (survSize cs tot range : ℝ) / (tot : ℝ) * range := by
  induction cs with
  | nil =>
    intro cur
    rw [segLoop, survSize]
    simp
  | cons child rest ih =>
    intro cur
    rw [segLoop, survSize]
    by_cases hz : child.total_size = 0
    · rw [if_pos hz, if_pos hz]
      exact ih cur
    · rw [if_neg hz, if_neg hz]
      dsimp only
      by_cases hlt : (child.total_size : ℝ) / (tot : ℝ) * range < MIN_ANGLE
      · rw [if_pos hlt, if_pos hlt]
        exact ih cur
      · rw [if_neg hlt, if_neg hlt]
        have hMIN : MIN_ANGLE ≤ (child.total_size : ℝ) / (tot : ℝ) * range :=
          not_lt.mp hlt
        have hca_pos : 0 < (child.total_size : ℝ) / (tot : ℝ) * range :=
          lt_of_lt_of_le MIN_ANGLE_pos hMIN
        have hrecZero : spanSum
            (if !child.is_file && !child.children.isEmpty then
              build_segments_recursive child (d + 1) cur
                (cur + (child.total_size : ℝ) / (tot : ℝ) * range)
                child.total_size maxd
            else []) d = 0 := by
          by_cases hgc : (!child.is_file && !child.children.isEmpty) = true
          · rw [if_pos hgc]
            apply spanSum_eq_zero
            intro s hs
            have hfile : child.is_file = false := by
              rw [Bool.and_eq_true] at hgc
              rcases hgc with ⟨h1, _⟩
              simpa using h1
            have heq : totalListSize child.children = child.total_size := by
              cases child with
              | mk cp cn csz cft ccs cf =>
                simp only [DirEntry.is_file_mk] at hfile
                subst hfile
                simp
            have h0 : 0 < child.total_size := Nat.pos_of_ne_zero hz
            have hch := (seg_inv_pair (sizeOf child)).1 child (d + 1) cur
              (cur + (child.total_size : ℝ) / (tot : ℝ) * range)
              child.total_size maxd le_rfl h0 (by linarith) (by rw [heq])
            have := (hch.1 s hs).1
            omega
          · rw [if_neg hgc]
            simp
        have hfilt : (Segment.mk child.path child.name child.total_size
            child.file_type d cur
            (cur + (child.total_size : ℝ) / (tot : ℝ) * range)
            child.is_file).depth == d := by simp
        rw [spanSum]
        rw [List.filter_cons]
        rw [if_pos (by simpa using hfilt)]
        rw [List.map_cons, List.sum_cons]
        have : ((((if !child.is_file && !child.children.isEmpty then
              build_segments_recursive child (d + 1) cur
                (cur + (child.total_size : ℝ) / (tot : ℝ) * range)
                child.total_size maxd
            else []) ++
            segLoop rest d (cur + (child.total_size : ℝ) / (tot : ℝ) * range)
              range tot maxd).filter (fun s => s.depth == d)).map
            (fun s => s.end_angle - s.start_angle)).sum =
            (survSize rest tot range : ℝ) / (tot : ℝ) * range := by
          have hap := spanSum_append
            (if !child.is_file && !child.children.isEmpty then
              build_segments_recursive child (d + 1) cur
                (cur + (child.total_size : ℝ) / (tot : ℝ) * range)
                child.total_size maxd
            else [])
            (segLoop rest d (cur + (child.total_size : ℝ) / (tot : ℝ) * range)
              range tot maxd) d
          rw [spanSum] at hap
          rw [hap, hrecZero]
          rw [ih (cur + (child.total_size : ℝ) / (tot : ℝ) * range)]
          ring
        rw [this]
        push_cast
        ring

/-- The surviving size never exceeds the children's total size. -/
theorem survSize_le (cs : List DirEntry) (tot : Nat) (range : ℝ) :
    survSize cs tot range ≤ totalListSize cs := by
  induction cs with
  | nil => rw [survSize]; simp
  | cons child rest ih =>
    rw [survSize, totalListSize_cons]
    by_cases hz : child.total_size = 0
    · rw [if_pos hz]
      omega
    · rw [if_neg hz]
      by_cases hlt : (child.total_size : ℝ) / (tot : ℝ) * range < MIN_ANGLE
      · rw [if_pos hlt]
        omega
      · rw [if_neg hlt]
        omega

/-- The surviving size equals the total size exactly when no nonzero child
is below the minimum-angle threshold. -/
theorem survSize_eq_iff (cs : List DirEntry) (tot : Nat) (range : ℝ) :
    survSize cs tot range = totalListSize cs ↔
      ∀ c ∈ cs, c.total_size ≠ 0 →
        ¬((c.total_size : ℝ) / (tot : ℝ) * range < MIN_ANGLE) := by
  induction cs with
  | nil => rw [survSize]; simp
  | cons child rest ih =>
    rw [survSize, totalListSize_cons]
    by_cases hz : child.total_size = 0
    · rw [if_pos hz, hz]
      simp only [List.mem_cons]
      constructor
      · intro h c hc hcz
        rcases hc with hc | hc
        · subst hc; exact absurd hz hcz
        · exact (ih.mp (by omega)) c hc hcz
      · intro h
        have := ih.mpr (fun c hc hcz => h c (Or.inr hc) hcz)
        omega
    · rw [if_neg hz]
      by_cases hlt : (child.total_size : ℝ) / (tot : ℝ) * range < MIN_ANGLE
      · rw [if_pos hlt]
        have hle := survSize_le rest tot range
        have hpos : 0 < child.total_size := Nat.pos_of_ne_zero hz
        constructor
        · intro h; omega
        · intro h
          exact absurd hlt (h child (by simp) hz)
      · rw [if_neg hlt]
        simp only [List.mem_cons]
        constructor
        · intro h c hc hcz
          rcases hc with hc | hc
          · subst hc; exact hlt
          · exact (ih.mp (by omega)) c hc hcz
        · intro h
          have := ih.mpr (fun c hc hcz => h c (Or.inr hc) hcz)
          omega

/-- `find?` returns a designated element when it matches and every match
equals it. -/
theorem find_eq_some_of_unique {α : Type} (p : α → Bool) (l : List α) (a : α)
    (ha : a ∈ l) (hpa : p a = true)
    (huniq : ∀ b ∈ l, p b = true → b = a) : l.find? p = some a := by
  induction l with
  | nil => simp at ha
  | cons c l ih =>
    rw [List.find?]
    by_cases hpc : p c = true
    · rw [hpc]
      rw [huniq c (by simp) hpc]
    · rw [Bool.not_eq_true] at hpc
      rw [hpc]
      rcases List.mem_cons.mp ha with ha | ha
      · subst ha
        rw [hpa] at hpc
        simp at hpc
      · exact ih ha (fun b hb hpb => huniq b (by simp [hb]) hpb)

open Classical in
/-- The (start, end) intervals the subdivision loop actually assigns, in
order: skipped children advance nothing, each survivor is placed at the
current angle. -/
noncomputable def survivorSpans (cs : List DirEntry) (cur range : ℝ)
    (tot : Nat) : List (ℝ × ℝ) :=
  match cs with
  | [] => []
  | c :: rest =>
    if c.total_size = 0 then survivorSpans rest cur range tot
    else if (c.total_size : ℝ) / (tot : ℝ) * range < MIN_ANGLE then
      survivorSpans rest cur range tot
    else (cur, cur + (c.total_size : ℝ) / (tot : ℝ) * range) ::
      survivorSpans rest (cur + (c.total_size : ℝ) / (tot : ℝ) * range)
        range tot

/-- The ring-`d` segments of one subdivision loop carry exactly the
`survivorSpans` intervals: dropped children are omitted and the following
survivors are laid out contiguously (shifted earlier), not gapped. -/
theorem segLoop_layout (cs : List DirEntry) (d : Nat) (range : ℝ)
    (tot maxd : Nat) (htot : 0 < tot) :
    ∀ cur : ℝ,
      ((segLoop cs d cur range tot maxd).filter
        (fun s => s.depth == d)).map
          (fun s => (s.start_angle, s.end_angle)) =
        survivorSpans cs cur range tot := by
  induction cs with
  | nil =>
    intro cur
    rw [segLoop, survivorSpans]
    simp
  | cons child rest ih =>
    intro cur
    rw [segLoop, survivorSpans]
    by_cases hz : child.total_size = 0
    · rw [if_pos hz, if_pos hz]
      exact ih cur
    · rw [if_neg hz, if_neg hz]
      dsimp only
      by_cases hlt : (child.total_size : ℝ) / (tot : ℝ) * range < MIN_ANGLE
      · rw [if_pos hlt, if_pos hlt]
        exact ih cur
      · rw [if_neg hlt, if_neg hlt]
        have hMIN : MIN_ANGLE ≤ (child.total_size : ℝ) / (tot : ℝ) * range :=
          not_lt.mp hlt
        have hrecNil : (if !child.is_file && !child.children.isEmpty then
              build_segments_recursive child (d + 1) cur
                (cur + (child.total_size : ℝ) / (tot : ℝ) * range)
                child.total_size maxd
            else []).filter (fun s => s.depth == d) = [] := by
          by_cases hgc : (!child.is_file && !child.children.isEmpty) = true
          · rw [if_pos hgc]
            rw [List.filter_eq_nil_iff]
            intro s hs
            have hfile : child.is_file = false := by
              rw [Bool.and_eq_true] at hgc
              rcases hgc with ⟨h1, _⟩
              simpa using h1
            have heq : totalListSize child.children = child.total_size := by
              cases child with
              | mk cp cn csz cft ccs cf =>
                simp only [DirEntry.is_file_mk] at hfile
                subst hfile
                simp
            have h0 : 0 < child.total_size := Nat.pos_of_ne_zero hz
            have hca_pos : 0 < (child.total_size : ℝ) / (tot : ℝ) * range :=
              lt_of_lt_of_le MIN_ANGLE_pos hMIN
            have hch := (seg_inv_pair (sizeOf child)).1 child (d + 1) cur
              (cur + (child.total_size : ℝ) / (tot : ℝ) * range)
              child.total_size maxd le_rfl h0 (by linarith) (by rw [heq])
            have := (hch.1 s hs).1
            simp only [beq_iff_eq]
            omega
          · rw [if_neg hgc]
            simp
        rw [List.filter_cons]
        rw [if_pos (by simp)]
        rw [List.map_cons]
        rw [List.filter_append, hrecNil]
        rw [List.nil_append]
        rw [ih (cur + (child.total_size : ℝ) / (tot : ℝ) * range)]

/-! ## Which subtrees segments come from -/

mutual

/-- All paths occurring in a subtree. -/
def subtreePaths : DirEntry → List (List String)
  | .mk p _ _ _ cs _ => p :: subtreePathsList cs

/-- All paths occurring in a forest. -/
def subtreePathsList : List DirEntry → List (List String)
  | [] => []
  | c :: cs => subtreePaths c ++ subtreePathsList cs

end

/-- A member's subtree paths are among the forest's. -/
theorem subtreePaths_sub (c : DirEntry) (cs : List DirEntry) (hc : c ∈ cs) :
    ∀ q ∈ subtreePaths c, q ∈ subtreePathsList cs := by
  induction cs with
  | nil => simp at hc
  | cons a cs ih =>
    intro q hq
    rw [subtreePathsList]
    rcases List.mem_cons.mp hc with h | h
    · subst h
      exact List.mem_append.mpr (Or.inl hq)
    · exact List.mem_append.mpr (Or.inr (ih h q hq))

/-- Every segment the layout emits originates in a *surviving* child's
subtree: a child dropped for zero size or for the minimum-angle threshold
is neither rendered nor recursed into. -/
theorem seg_paths_pair : ∀ k : Nat,
    (∀ (e : DirEntry) (d : Nat) (a b : ℝ) (tot maxd : Nat), sizeOf e ≤ k →
      ∀ s ∈ build_segments_recursive e d a b tot maxd,
        s.path ∈ subtreePathsList e.children) ∧
    (∀ (cs : List DirEntry) (d : Nat) (cur range : ℝ) (tot maxd : Nat),
      sizeOf cs ≤ k →
      ∀ s ∈ segLoop cs d cur range tot maxd,
        ∃ c ∈ cs, c.total_size ≠ 0 ∧
          ¬((c.total_size : ℝ) / (tot : ℝ) * range < MIN_ANGLE) ∧
          s.path ∈ subtreePaths c) := by
  intro k
  induction k using Nat.strong_induction_on with
  | _ k IH =>
    constructor
    · intro e d a b tot maxd hk s hs
      rw [build_segments_recursive] at hs
      by_cases hd : d > maxd
      · rw [if_pos hd] at hs
        simp at hs
      · rw [if_neg hd] at hs
        have hlt : sizeOf e.children < k := by
          have h1 : sizeOf e.children < sizeOf e := by
            cases e
            simp only [DirEntry.children_mk, DirEntry.mk.sizeOf_spec]
            omega
          omega
        rcases (IH (sizeOf e.children) hlt).2 e.children d a (b - a) tot maxd
          le_rfl s hs with ⟨c, hc, _, _, hpath⟩
        exact subtreePaths_sub c e.children hc s.path hpath
    · intro cs d cur range tot maxd hk s hs
      cases cs with
      | nil =>
        rw [segLoop] at hs
        simp at hs
      | cons child rest =>
        have hrest_lt : sizeOf rest < k := by
          have : sizeOf rest < sizeOf (child :: rest) := by
            simp only [List.cons.sizeOf_spec]; omega
          omega
        have hchild_lt : sizeOf child < k := by
          have : sizeOf child < sizeOf (child :: rest) := by
            simp only [List.cons.sizeOf_spec]; omega
          omega
        rw [segLoop] at hs
        by_cases hz : child.total_size = 0
        · rw [if_pos hz] at hs
          rcases (IH _ hrest_lt).2 rest d cur range tot maxd le_rfl s hs with
            ⟨c, hc, h1, h2, h3⟩
          exact ⟨c, by simp [hc], h1, h2, h3⟩
        · rw [if_neg hz] at hs
          dsimp only at hs
          by_cases hlt : (child.total_size : ℝ) / (tot : ℝ) * range < MIN_ANGLE
          · rw [if_pos hlt] at hs
            rcases (IH _ hrest_lt).2 rest d cur range tot maxd le_rfl s hs with
              ⟨c, hc, h1, h2, h3⟩
            exact ⟨c, by simp [hc], h1, h2, h3⟩
          · rw [if_neg hlt] at hs
            rcases List.mem_cons.mp hs with hs | hs
            · subst hs
              refine ⟨child, by simp, hz, hlt, ?_⟩
              cases child with
              | mk cp cn csz cft ccs cf =>
                rw [subtreePaths]
                simp
            · rcases List.mem_append.mp hs with hs | hs
              · by_cases hgc : (!child.is_file && !child.children.isEmpty) = true
                · rw [if_pos hgc] at hs
                  have := (IH _ hchild_lt).1 child (d + 1) cur
                    (cur + (child.total_size : ℝ) / (tot : ℝ) * range)
                    child.total_size maxd le_rfl s hs
                  refine ⟨child, by simp, hz, hlt, ?_⟩
                  cases child with
                  | mk cp cn csz cft ccs cf =>
                    rw [subtreePaths]
                    simp only [DirEntry.children_mk] at this
                    exact List.mem_cons_of_mem _ this
                · rw [if_neg hgc] at hs
                  simp at hs
              · rcases (IH _ hrest_lt).2 rest d
                  (cur + (child.total_size : ℝ) / (tot : ℝ) * range) range tot
                  maxd le_rfl s hs with ⟨c, hc, h1, h2, h3⟩
                exact ⟨c, by simp [hc], h1, h2, h3⟩

/-! ## Claim C1 -/

/-- C1: for every directory node in a tree produced by a completed scan
(`Complete` message of `scan_recursive`), and still after any removal
performed by `remove_entry_from_tree`, the node's stored `size` equals the
sum of `total_size()` over its children, recursively at every level. -/
theorem claim1_aggregation :
    (∀ (p : List String) (n : FsNode) (e : DirEntry),
      ScanProgress.Complete e ∈ scan_recursive p n → sizesValid e = true) ∧
    (∀ (e : DirEntry) (t : List String),
      sizesValid (remove_entry_from_tree e t).1 = true) := by
  constructor
  · intro p n e h
    rcases complete_mem_scan p n e h with ⟨e0, hok, heq⟩
    subst heq
    exact sizesValid_sort e0 (build_entry_valid p n 1 e0 hok)
  · exact sizesValid_remove

/-- The sample filesystem for the scan witnesses: a readable root directory
holding one 5-byte file. -/
def fsW : FsNode := FsNode.dir true [("a", FsNode.file 5)]

/-- The tree the witness scan completes with. -/
def entryW : DirEntry :=
  .mk ["r"] "r" 5 FileType.Directory [DirEntry.new_file ["r", "a"] 5] false

/-- The witness scan's trace, evaluated. -/
theorem scanW_eval :
    scan_recursive ["r"] fsW =
      [ScanProgress.Scanning "/r", ScanProgress.Complete entryW] := by
  rw [scan_recursive_eq]
  have hb : build_entry ["r"] fsW 1 =
      (Except.ok (.mk ["r"] "r" 5 FileType.Directory
        [DirEntry.new_file ["r", "a"] 5] false), [], 2) := by
    rw [fsW]
    rw [build_entry]
    rw [if_pos rfl]
    rw [loudChildren]
    rw [loudChildren]
    norm_num
    exact ⟨rfl, rfl⟩
  rw [hb]
  dsimp only
  have hsort : (DirEntry.mk ["r"] "r" 5 FileType.Directory
      [DirEntry.new_file ["r", "a"] 5] false).sort_by_size = entryW := by
    rw [sort_by_size_eq]
    rw [entryW]
    have h1 : [DirEntry.new_file ["r", "a"] 5].mergeSort descBySize =
        [DirEntry.new_file ["r", "a"] 5] := List.mergeSort_singleton _
    rw [h1]
    rw [List.map_cons, List.map_nil]
    have h2 : (DirEntry.new_file ["r", "a"] 5).sort_by_size =
        DirEntry.new_file ["r", "a"] 5 := by
      rw [DirEntry.new_file]
      rw [sort_by_size_eq]
      simp
    rw [h2]
  rw [hsort]
  rfl

/-- Witness for C1 at a concrete scan and tree. -/
theorem claim1_witness : sizesValid entryW = true :=
  claim1_aggregation.1 ["r"] fsW entryW
    (by rw [scanW_eval]; exact List.mem_cons_of_mem _ (List.mem_singleton.mpr rfl))

/-! ## Claim C6 -/

/-- C6: for every directory in the tree, children are in size-descending
order (`children[i].total_size() >= children[i+1].total_size()`); this
holds in a completed scan and is maintained after the in-memory prune that
follows a successful deletion. -/
theorem claim6_sorted :
    (∀ (p : List String) (n : FsNode) (e : DirEntry),
      ScanProgress.Complete e ∈ scan_recursive p n → sortedOk e = true) ∧
    (∀ (e : DirEntry) (t : List String),
      sortedOk (remove_entry_from_tree e t).1 = true) := by
  constructor
  · intro p n e h
    rcases complete_mem_scan p n e h with ⟨e0, _, heq⟩
    subst heq
    exact sortedOk_sort e0
  · exact sortedOk_remove

/-- Witness for C6 at the same concrete scan. -/
theorem claim6_witness : sortedOk entryW = true :=
  claim6_sorted.1 ["r"] fsW entryW
    (by rw [scanW_eval]; exact List.mem_cons_of_mem _ (List.mem_singleton.mpr rfl))

/-! ## Claim C7 -/

/-- C7: `delete_entry` on a protected path returns `ProtectedPath` without
touching the filesystem, and on every non-`Success` result the dialog
handler leaves the application state (tree and segments) unmodified. -/
theorem claim7_protected :
    (∀ (fs : FileSys) (p : List String), is_protected_path p = true →
      delete_entry fs p = (DeleteResult.ProtectedPath, fs)) ∧
    (∀ (st : AppState) (res : DeleteResult) (p : List String),
      res ≠ DeleteResult.Success → handle_delete_response st res p = st) := by
  constructor
  · intro fs p hp
    rw [delete_entry, if_pos hp]
  · intro st res p hres
    cases res with
    | Success => exact absurd rfl hres
    | ProtectedPath => rfl
    | NotFound => rfl
    | PermissionDenied msg => rfl
    | Error msg => rfl

/-- Witness for C7: deleting `/usr` is refused with the filesystem intact,
and a `NotFound` result leaves a sample state untouched. -/
theorem claim7_witness :
    delete_entry ⟨["/usr"], ["/usr"], [], []⟩ ["usr"] =
      (DeleteResult.ProtectedPath, ⟨["/usr"], ["/usr"], [], []⟩) ∧
    handle_delete_response ⟨none, [], none, [], false, "", 0⟩
      DeleteResult.NotFound ["x"] = ⟨none, [], none, [], false, "", 0⟩ :=
  ⟨claim7_protected.1 _ _ (by decide),
   claim7_protected.2 _ _ _ (by simp)⟩

/-! ## Claim C8 -/

/-- The concrete tree of spec Scenario C: a 400-byte directory with a
50-byte child and a 350-byte sibling. -/
def treeC : DirEntry :=
  .mk ["d"] "d" 400 FileType.Directory
    [.mk ["d", "a"] "a" 50 FileType.Other [] true,
     .mk ["d", "b"] "b" 350 FileType.Other [] true] false

/-- C8 (evaluation at the failing input): pruning `/d/a` from `treeC` does
remove exactly that node, but it also zeroes the surviving sibling's size
and recomputes the directory's size as 0, not 350 — the prune recurses
into *file* nodes and overwrites `size` with the (empty) children sum
(`ui.rs` line 602), and its `return true` early exit (line 597) is dead
code. -/
theorem claim8_eval :
    remove_entry_from_tree treeC ["d", "a"] =
      (.mk ["d"] "d" 0 FileType.Directory
        [.mk ["d", "b"] "b" 0 FileType.Other [] true] false, false) := by
  rw [treeC]
  rw [remove_eq]
  have hfil : ([DirEntry.mk ["d", "a"] "a" 50 FileType.Other [] true,
      DirEntry.mk ["d", "b"] "b" 350 FileType.Other [] true].filter
        (fun c => decide ¬c.path = ["d", "a"])) =
      [DirEntry.mk ["d", "b"] "b" 350 FileType.Other [] true] := by
    rw [List.filter_cons, List.filter_cons, List.filter_nil]
    simp
  rw [hfil]
  rw [List.map_cons, List.map_nil]
  rw [remove_eq]
  simp

/-! ## Claim C9 -/

/-- When `parentPath` answers, the parent is strictly shorter. -/
theorem parentPath_length {p q : List String} (h : parentPath p = some q) :
    q.length < p.length := by
  cases p with
  | nil => simp [parentPath] at h
  | cons a p =>
    have heq : parentPath (a :: p) = some ((a :: p).dropLast) := rfl
    rw [heq] at h
    simp only [Option.some.injEq] at h
    subst h
    simp

/-- C9: when the zoom root equals the scan root (of a tree satisfying the
path-hierarchy invariant of spec §3), `navigate_up` leaves the whole view
state unchanged and `can_navigate_up` is false; in general `navigate_up`
either changes nothing or moves the view root to its filesystem parent,
and only when that parent resolves in the scan tree. -/
theorem claim9_navigation :
    (∀ (st : AppState) (r : DirEntry), st.scan_root = some r →
      hierOk r = true → st.view_root = r.path →
      navigate_up st = st ∧ can_navigate_up st = false) ∧
    (∀ st : AppState, navigate_up st = st ∨
      ∃ par, parentPath st.view_root = some par ∧
        (st.scan_root.bind (fun r => r.find_by_path par)).isSome = true ∧
        navigate_up st = rebuild_segments { st with view_root := par }) := by
  constructor
  · intro st r hsr hhier hview
    have hcan : can_navigate_up st = false := by
      rw [can_navigate_up, hsr]
      simp [hview]
    refine ⟨?_, hcan⟩
    rw [navigate_up]
    rcases hpar : parentPath st.view_root with _ | par
    · rfl
    · have hlen : par.length < r.path.length := by
        have := parentPath_length hpar
        rwa [hview] at this
      have hfind : r.find_by_path par = none :=
        find_by_path_none_of_short r hhier par hlen
      dsimp only
      rw [if_neg]
      rw [hsr]
      simp [hfind]
  · intro st
    rcases hpar : parentPath st.view_root with _ | par
    · left
      rw [navigate_up, hpar]
    · by_cases hfind : (st.scan_root.bind (fun r => r.find_by_path par)).isSome = true
      · right
        refine ⟨par, rfl, hfind, ?_⟩
        rw [navigate_up, hpar]
        dsimp only
        rw [if_pos hfind]
      · left
        rw [navigate_up, hpar]
        dsimp only
        rw [if_neg hfind]

/-- The sample state for the C9 witness: zoomed at the scan root. -/
def stW9 : AppState :=
  ⟨some (.mk ["home"] "home" 5 FileType.Directory
    [.mk ["home", "x"] "x" 5 FileType.Other [] true] false),
   ["home"], none, [], false, "", 0⟩

/-- Witness for C9 at a concrete state whose zoom root is the scan root. -/
theorem claim9_witness : navigate_up stW9 = stW9 ∧ can_navigate_up stW9 = false :=
  claim9_navigation.1 stW9
    (.mk ["home"] "home" 5 FileType.Directory
      [.mk ["home", "x"] "x" 5 FileType.Other [] true] false)
    rfl (by decide) rfl

/-! ## Claim C10 -/

/-- C10 as stated is false: `/usr` is a strict descendant of the protected
path `/` (it extends `[]` by one component), yet `is_protected_path`
returns `true` for it — because `/usr` itself is in the list, not because
of any prefix matching. -/
theorem claim10_counterexample :
    pathString [] ∈ PROTECTED_PATHS ∧
    (["usr"] : List String) = [] ++ ["usr"] ∧
    (["usr"] : List String) ≠ [] ∧
    is_protected_path ["usr"] = true := by
  refine ⟨by decide, rfl, by decide, by decide⟩

/-- C10 (amended): protection is decided by exact string equality with the
fixed list — `is_protected_path p` is true exactly when `p`'s rendering is
in `PROTECTED_PATHS`; hence any path whose rendering is not itself listed
(such as the strict descendant `/usr/local`) is unprotected and
`delete_entry` never answers `ProtectedPath` for it.  The
virtual-filesystem skip list, by contrast, also matches paths nested below
a listed mount point. -/
theorem claim10_amended :
    (∀ p : List String,
      is_protected_path p = true ↔ pathString p ∈ PROTECTED_PATHS) ∧
    (∀ p : List String, pathString p ∉ PROTECTED_PATHS →
      is_protected_path p = false ∧
      ∀ fs : FileSys, (delete_entry fs p).1 ≠ DeleteResult.ProtectedPath) ∧
    (∀ (p : List String) (v : String), v ∈ VIRTUAL_FS_PATHS →
      strStartsWith (pathString p) (v ++ "/") = true →
      is_virtual_fs p = true) := by
  refine ⟨?_, ?_, ?_⟩
  · intro p
    rw [is_protected_path, List.any_eq_true]
    constructor
    · rintro ⟨q, hq, hbeq⟩
      rw [beq_iff_eq] at hbeq
      rwa [hbeq]
    · intro h
      exact ⟨pathString p, h, by simp⟩
  · intro p hp
    have hfalse : is_protected_path p = false := by
      rw [Bool.eq_false_iff]
      intro h
      rw [is_protected_path, List.any_eq_true] at h
      rcases h with ⟨q, hq, hbeq⟩
      rw [beq_iff_eq] at hbeq
      rw [← hbeq] at hq
      exact hp hq
    refine ⟨hfalse, ?_⟩
    intro fs
    rw [delete_entry]
    rw [if_neg (by simp [hfalse])]
    dsimp only
    split
    · simp
    · split
      · simp
      · split
        · simp
        · split
          · simp
          · simp
  · intro p v hv hsw
    rw [is_virtual_fs, List.any_eq_true]
    exact ⟨v, hv, by rw [Bool.or_eq_true]; right; exact hsw⟩

/-- Witness for C10 (amended): `/usr/local` is a strict descendant of the
protected `/usr` yet is unprotected and deletable past the protection
check, while the nested `/proc/x` *is* caught by the virtual-filesystem
skip list. -/
theorem claim10_witness :
    is_protected_path ["usr", "local"] = false ∧
    (delete_entry ⟨["/usr/local"], [], [], []⟩ ["usr", "local"]).1 ≠
      DeleteResult.ProtectedPath ∧
    is_virtual_fs ["proc", "x"] = true :=
  ⟨(claim10_amended.2.1 ["usr", "local"] (by decide)).1,
   (claim10_amended.2.1 ["usr", "local"] (by decide)).2 _,
   claim10_amended.2.2 ["proc", "x"] "/proc" (by decide) (by decide)⟩

/-! ## Claim C5 -/

/-- Is a progress message an `ItemCount`? -/
def isItemCountB : ScanProgress → Bool
  | .ItemCount _ => true
  | _ => false

/-- Is a progress message a `Scanning`? -/
def isScanningB : ScanProgress → Bool
  | .Scanning _ => true
  | _ => false

/-- Is a progress message terminal (`Complete` or `Error`)? -/
def isTerminalB : ScanProgress → Bool
  | .Complete _ => true
  | .Error _ => true
  | _ => false

/-- A filesystem whose 100th visited item lies inside a subdirectory: the
root holds one subdirectory with 98 one-byte files (the walk counts the
root, the subdirectory and the 98 files: 100 items). -/
def fsC5 : FsNode :=
  FsNode.dir true [("sub", FsNode.dir true (List.replicate 98 ("f", FsNode.file 1)))]

/-- The quiet loop over `k` identical files: emits the `k` file entries and
advances the counter by `k` (with no messages, whatever the counter). -/
theorem quietChildren_files (base : List String) (nm : String) (sz : Nat) :
    ∀ (k count : Nat),
      quietChildren base (List.replicate k (nm, FsNode.file sz)) count =
        (List.replicate k (DirEntry.new_file (base ++ [nm]) sz), count + k) := by
  intro k
  induction k with
  | zero =>
    intro count
    rw [List.replicate_zero, quietChildren, List.replicate_zero]
    simp
  | succ k ih =>
    intro count
    rw [List.replicate_succ, quietChildren, ih (count + 1)]
    rw [List.replicate_succ]
    dsimp only
    rw [Prod.mk.injEq]
    exact ⟨rfl, by omega⟩

/-- Total size of `k` replicated files of size `sz`. -/
theorem totalListSize_replicate (p : List String) (sz : Nat) :
    ∀ k, totalListSize (List.replicate k (DirEntry.new_file p sz)) = k * sz := by
  intro k
  induction k with
  | zero => rw [List.replicate_zero]; simp
  | succ k ih =>
    rw [List.replicate_succ, totalListSize_cons, ih]
    have : (DirEntry.new_file p sz).total_size = sz := rfl
    rw [this]
    ring

/-- The C5 filesystem's `build_entry` run, evaluated: 100 items visited,
no `ItemCount` message emitted (the 100th item lies inside the quiet
subdirectory walk), the subdirectory aggregated to 98 bytes. -/
theorem c5_hts : totalListSize
    (List.replicate 98 (DirEntry.new_file ["r", "sub", "f"] 1)) = 98 := by
  rw [totalListSize_replicate]

theorem build_entry_quiet_dir (p : List String) (readable : Bool)
    (entries : List (String × FsNode)) (c : Nat)
    (hv : is_virtual_fs p = false) (hr : readable = true) :
    build_entry_quiet p (.dir readable entries) c =
      ((match quietChildren p entries c with
        | (kids, c2) =>
          (Except.ok (.mk p ((DirEntry.new_dir p).name) (totalListSize kids)
            FileType.Directory kids false), c2)) :
        Except String DirEntry × Nat) := by
  rw [build_entry_quiet.eq_def]
  rw [if_neg (by simp [hv])]
  dsimp only
  rw [if_pos hr]

theorem c5_hquiet : build_entry_quiet ["r", "sub"]
    (FsNode.dir true (List.replicate 98 ("f", FsNode.file 1))) (1 + 1) =
    (Except.ok (.mk ["r", "sub"] "sub" 98 FileType.Directory
      (List.replicate 98 (DirEntry.new_file ["r", "sub", "f"] 1)) false),
     100) := by
  rw [build_entry_quiet_dir ["r", "sub"] true
    (List.replicate 98 ("f", FsNode.file 1)) (1 + 1) (by decide) rfl]
  rw [quietChildren_files ["r", "sub"] "f" 1 98 (1 + 1)]
  dsimp only
  rw [Prod.mk.injEq]
  constructor
  · simp only [List.cons_append, List.nil_append]
    rw [c5_hts]
    have hname : (DirEntry.new_dir ["r", "sub"]).name = "sub" := rfl
    rw [hname]
  · norm_num

theorem c5_hloud : loudChildren ["r"]
    [("sub", FsNode.dir true (List.replicate 98 ("f", FsNode.file 1)))] 1 =
    ([.mk ["r", "sub"] "sub" 98 FileType.Directory
      (List.replicate 98 (DirEntry.new_file ["r", "sub", "f"] 1)) false],
     [], 100) := by
  rw [loudChildren]
  rw [if_neg (by decide)]
  rw [List.singleton_append]
  rw [c5_hquiet]
  dsimp only
  rw [loudChildren]
  norm_num

/-- The C5 filesystem's `build_entry` run, evaluated: 100 items visited,
no `ItemCount` message emitted (the 100th item lies inside the quiet
subdirectory walk), the subdirectory aggregated to 98 bytes. -/
theorem buildC5_eval :
    build_entry ["r"] fsC5 1 =
      (Except.ok (.mk ["r"] "r" 98 FileType.Directory
        [.mk ["r", "sub"] "sub" 98 FileType.Directory
          (List.replicate 98 (DirEntry.new_file ["r", "sub", "f"] 1)) false]
        false), [], 100) := by
  rw [fsC5, build_entry, if_pos rfl]
  rw [c5_hloud]
  dsimp only
  rw [totalListSize_cons, totalListSize_nil]
  rw [total_size_mk]
  rw [if_neg (by simp)]
  rw [c5_hts]
  rfl

/-- C5 as stated is false at `fsC5`: the scan visits 100 items (final
counter 100) yet emits *no* `ItemCount` message — the 100th item is
visited inside `build_entry_quiet`, which sends nothing — and it enters
two directories (the root and `/r/sub`, whose aggregated entry appears in
the completed tree) yet emits exactly one `Scanning` message (only
`scan_recursive` sends `Scanning`, for the root). -/
theorem claim5_counterexample :
    (scan_recursive ["r"] fsC5).countP isItemCountB = 0 ∧
    (scan_recursive ["r"] fsC5).countP isScanningB = 1 ∧
    (build_entry ["r"] fsC5 1).2.2 = 100 ∧
    ((build_entry ["r"] fsC5 1).1.toOption.map
      (fun e => e.children.map (fun c => (c.path, c.is_file, c.total_size)))) =
      some [(["r", "sub"], false, 98)] := by
  have hb := buildC5_eval
  have htr : scan_recursive ["r"] fsC5 =
      [ScanProgress.Scanning (pathString ["r"]),
       ScanProgress.Complete ((DirEntry.mk ["r"] "r" 98 FileType.Directory
        [.mk ["r", "sub"] "sub" 98 FileType.Directory
          (List.replicate 98 (DirEntry.new_file ["r", "sub", "f"] 1)) false]
        false).sort_by_size)] := by
    rw [scan_recursive_eq, hb]
    rfl
  refine ⟨?_, ?_, ?_, ?_⟩
  · rw [htr]
    rfl
  · rw [htr]
    rfl
  · rw [hb]
  · rw [hb]
    have hts : totalListSize
        (List.replicate 98 (DirEntry.new_file ["r", "sub", "f"] 1)) = 98 := by
      rw [totalListSize_replicate]
    have hsub : (DirEntry.mk ["r", "sub"] "sub" 98 FileType.Directory
        (List.replicate 98 (DirEntry.new_file ["r", "sub", "f"] 1))
        false).total_size = 98 := by
      rw [total_size_mk, if_neg (by simp)]
      exact hts
    dsimp only
    rw [show ∀ (e : DirEntry),
      (Except.ok e : Except String DirEntry).toOption = some e from fun _ => rfl]
    rw [show ∀ (f : DirEntry → List (List String × Bool × Nat)) (e : DirEntry),
      Option.map f (some e) = some (f e) from fun _ _ => rfl]
    rw [Option.some.injEq]
    rw [DirEntry.children_mk]
    rw [List.map_cons, List.map_nil]
    rw [hsub]
    rw [DirEntry.path_mk, DirEntry.is_file_mk]

/-- C5 (amended): the scanner emits exactly one `Scanning` notification —
for the root, as the very first message; directories entered below the
root produce none — then zero or more `ItemCount` messages (emitted only
when processing a direct child of the root brings the running count to a
multiple of 100; items visited inside subdirectories never trigger one),
and finally exactly one terminal message, `Complete` on success or `Error`
on root failure, which is the last message of the trace. -/
theorem claim5_amended (p : List String) (n : FsNode) :
    ∃ ics term,
      scan_recursive p n =
        ScanProgress.Scanning (pathString p) :: (ics ++ [term]) ∧
      (∀ m ∈ ics, ∃ k, m = ScanProgress.ItemCount k) ∧
      ((∃ e, term = ScanProgress.Complete e) ∨
        (∃ msg, term = ScanProgress.Error msg)) ∧
      (scan_recursive p n).countP isScanningB = 1 ∧
      (scan_recursive p n).countP isTerminalB = 1 := by
  have hmsgs := build_entry_msgs p n 1
  have hics0 : ∀ q : ScanProgress → Bool, (∀ k, q (ScanProgress.ItemCount k) = false) →
      (build_entry p n 1).2.1.countP q = 0 := by
    intro q hq
    rw [List.countP_eq_zero]
    intro m hm
    rcases hmsgs m hm with ⟨k, hk⟩
    subst hk
    simp [hq k]
  have hterm : ∀ term : ScanProgress, isScanningB term = false →
      isTerminalB term = true →
      (ScanProgress.Scanning (pathString p) ::
        ((build_entry p n 1).2.1 ++ [term])).countP isScanningB = 1 ∧
      (ScanProgress.Scanning (pathString p) ::
        ((build_entry p n 1).2.1 ++ [term])).countP isTerminalB = 1 := by
    intro term h1 h2
    have hsc : isScanningB (ScanProgress.Scanning (pathString p)) = true := rfl
    have hsc2 : isTerminalB (ScanProgress.Scanning (pathString p)) = false := rfl
    constructor
    · rw [List.countP_cons]
      rw [List.countP_append]
      rw [hics0 isScanningB (fun k => rfl)]
      rw [List.countP_cons, List.countP_nil, h1, hsc]
      norm_num
    · rw [List.countP_cons]
      rw [List.countP_append]
      rw [hics0 isTerminalB (fun k => rfl)]
      rw [List.countP_cons, List.countP_nil, h2, hsc2]
      norm_num
  rcases hb : (build_entry p n 1).1 with msg | e
  · refine ⟨(build_entry p n 1).2.1, ScanProgress.Error msg,
      by rw [scan_recursive_eq, hb], hmsgs, Or.inr ⟨msg, rfl⟩, ?_, ?_⟩
    · have := (hterm (ScanProgress.Error msg) rfl rfl).1
      rw [scan_recursive_eq, hb]
      exact this
    · have := (hterm (ScanProgress.Error msg) rfl rfl).2
      rw [scan_recursive_eq, hb]
      exact this
  · refine ⟨(build_entry p n 1).2.1, ScanProgress.Complete e.sort_by_size,
      by rw [scan_recursive_eq, hb], hmsgs, Or.inl ⟨e.sort_by_size, rfl⟩, ?_, ?_⟩
    · have := (hterm (ScanProgress.Complete e.sort_by_size) rfl rfl).1
      rw [scan_recursive_eq, hb]
      exact this
    · have := (hterm (ScanProgress.Complete e.sort_by_size) rfl rfl).2
      rw [scan_recursive_eq, hb]
      exact this

/-! ## Claim C2 -/

/-- C2: in any one `build_segments` invocation (on a well-formed tree) any
two distinct segments of a common depth have non-overlapping half-open
angular intervals; and for any subdivision of a parent's span among its
children (`tot` the children's summed size, positive, over a positive
range) the summed span of the emitted sibling segments is at most the
parent's span, with equality exactly when no nonzero child was pruned by
the minimum-angle threshold (children skipped for zero size contribute no
angle and cannot break equality). -/
theorem claim2_disjoint_spans :
    (∀ (root : DirEntry) (maxd : Nat), wellFormed root = true →
      List.Pairwise segDisjoint (build_segments root maxd)) ∧
    (∀ (cs : List DirEntry) (d : Nat) (cur range : ℝ) (tot maxd : Nat),
      tot = totalListSize cs → 0 < tot → (0 : ℝ) < range →
      spanSum (segLoop cs d cur range tot maxd) d ≤ range ∧
      (spanSum (segLoop cs d cur range tot maxd) d = range ↔
        ∀ c ∈ cs, c.total_size ≠ 0 →
          ¬((c.total_size : ℝ) / (tot : ℝ) * range < MIN_ANGLE))) := by
  constructor
  · exact build_segments_pairwise
  · intro cs d cur range tot maxd htoteq htot hrange
    have hspan := spanSum_segLoop cs d range tot maxd htot (le_of_lt hrange) cur
    have htot0 : (0 : ℝ) < (tot : ℝ) := by exact_mod_cast htot
    have hle : (survSize cs tot range : ℝ) ≤ (tot : ℝ) := by
      have h1 := survSize_le cs tot range
      rw [← htoteq] at h1
      exact_mod_cast h1
    constructor
    · rw [hspan]
      calc (survSize cs tot range : ℝ) / (tot : ℝ) * range
          ≤ (tot : ℝ) / (tot : ℝ) * range := by
            apply mul_le_mul_of_nonneg_right _ (le_of_lt hrange)
            rw [div_eq_mul_inv, div_eq_mul_inv]
            exact mul_le_mul_of_nonneg_right hle (inv_nonneg.mpr htot0.le)
        _ = range := by rw [div_self (ne_of_gt htot0), one_mul]
    · rw [hspan]
      constructor
      · intro h
        have hcancel : (survSize cs tot range : ℝ) / (tot : ℝ) = 1 := by
          apply mul_right_cancel₀ (ne_of_gt hrange)
          rw [h, one_mul]
        have h2 : survSize cs tot range = tot := by
          field_simp [ne_of_gt htot0] at hcancel
          exact_mod_cast hcancel
        exact (survSize_eq_iff cs tot range).mp (h2.trans htoteq)
      · intro h
        have h3 : survSize cs tot range = tot :=
          ((survSize_eq_iff cs tot range).mpr h).trans htoteq.symm
        rw [h3, div_self (ne_of_gt htot0), one_mul]

/-- The file entry of the one-child witness tree. -/
def fileA1 : DirEntry := .mk ["a"] "a" 1 FileType.Other [] true

/-- The one-child witness tree: a root directory holding one 1-byte file. -/
def treeW1 : DirEntry := .mk [] "r" 1 FileType.Directory [fileA1] false

/-- The layout of the witness tree, evaluated: the full-circle center
segment and one full-circle child segment at ring 1. -/
theorem buildW1_eval : build_segments treeW1 5 =
    [⟨[], "r", 1, FileType.Directory, 0, 0, 2 * Real.pi, false⟩,
     ⟨["a"], "a", 1, FileType.Other, 1, 0, 2 * Real.pi, true⟩] := by
  have hangle : ((1 : ℕ) : ℝ) / ((1 : ℕ) : ℝ) * (2 * Real.pi - 0) = 2 * Real.pi := by
    push_cast
    ring
  have hseg : segLoop [fileA1] 1 0 (2 * Real.pi - 0) 1 5 =
      [⟨["a"], "a", 1, FileType.Other, 1, 0, 2 * Real.pi, true⟩] := by
    rw [segLoop]
    rw [if_neg (by decide)]
    dsimp only
    rw [if_neg (by
      rw [fileA1]
      simp only [total_size_mk]
      rw [MIN_ANGLE]
      intro hcon
      norm_num at hcon
      nlinarith [Real.pi_gt_three])]
    rw [if_neg (by rw [fileA1]; decide)]
    rw [segLoop]
    rw [List.nil_append]
    rw [fileA1]
    simp only [total_size_mk, DirEntry.path_mk, DirEntry.name_mk,
      DirEntry.file_type_mk, DirEntry.is_file_mk, List.cons.injEq,
      Segment.mk.injEq]
    norm_num
  rw [build_segments]
  rw [if_neg (by decide)]
  rw [show treeW1.total_size = 1 from rfl]
  rw [build_segments_recursive]
  rw [if_neg (by norm_num)]
  rw [show treeW1.children = [fileA1] from rfl]
  rw [hseg]
  rw [show treeW1.path = ([] : List String) from rfl]
  rw [show treeW1.name = "r" from rfl]
  rw [show treeW1.file_type = FileType.Directory from rfl]
  rw [show treeW1.is_file = false from rfl]

/-- Witness for C2 at the concrete witness tree and subdivision. -/
theorem claim2_witness :
    List.Pairwise segDisjoint (build_segments treeW1 5) ∧
    (spanSum (segLoop [fileA1] 1 0 (2 * Real.pi) 1 5) 1 ≤ 2 * Real.pi ∧
      (spanSum (segLoop [fileA1] 1 0 (2 * Real.pi) 1 5) 1 = 2 * Real.pi ↔
        ∀ c ∈ [fileA1], c.total_size ≠ 0 →
          ¬((c.total_size : ℝ) / ((1 : ℕ) : ℝ) * (2 * Real.pi) < MIN_ANGLE))) :=
  ⟨claim2_disjoint_spans.1 treeW1 5 (by decide),
   claim2_disjoint_spans.2 [fileA1] 1 0 (2 * Real.pi) 1 5 (by decide)
     (by norm_num) (by positivity)⟩

/-! ## Claim C3 -/

/-- A 1-byte file, below the angular threshold in a 1000-byte parent. -/
def fileD1 : DirEntry := .mk ["d", "a"] "a" 1 FileType.Other [] true

/-- Its 999-byte sibling. -/
def fileD999 : DirEntry := .mk ["d", "b"] "b" 999 FileType.Other [] true

/-- Parent directory of the two: total 1000 bytes, so the 1-byte child's
span `2π/1000 ≈ 0.0063` falls below `MIN_ANGLE = 0.01` and is dropped. -/
def treeC3 : DirEntry :=
  .mk ["d"] "d" 1000 FileType.Directory [fileD1, fileD999] false

/-- C3 as stated is false: dropping the sub-threshold first child *does*
shift its sibling earlier.  In `treeC3` the surviving sibling `/d/b`
starts at angle 0, whereas the true proportional layout (with no child
dropped) would start it at `(1/1000)·2π ≠ 0`: the dropped sliver leaves no
gap in place — `current_angle` is simply not advanced (`sunburst.rs` line
93 `continue`s before line 122). -/
theorem claim3_counterexample :
    (build_segments treeC3 5).map (fun s => (s.path, s.start_angle)) =
      [(["d"], 0), (["d", "b"], 0)] ∧
    (1 : ℝ) / 1000 * (2 * Real.pi) ≠ 0 := by
  constructor
  · have hseg : segLoop [fileD1, fileD999] 1 0 (2 * Real.pi - 0) 1000 5 =
        [⟨["d", "b"], "b", 999, FileType.Other, 1, 0,
          0 + (fileD999.total_size : ℝ) / ((1000 : ℕ) : ℝ) * (2 * Real.pi - 0),
          true⟩] := by
      rw [segLoop]
      rw [if_neg (by decide)]
      dsimp only
      rw [if_pos (by
        rw [fileD1]
        simp only [total_size_mk]
        rw [MIN_ANGLE]
        norm_num
        nlinarith [Real.pi_lt_d2])]
      rw [segLoop]
      rw [if_neg (by decide)]
      dsimp only
      rw [if_neg (by
        rw [fileD999]
        simp only [total_size_mk]
        rw [MIN_ANGLE]
        intro hcon
        norm_num at hcon
        nlinarith [Real.pi_gt_three])]
      rw [if_neg (by rw [fileD999]; decide)]
      rw [segLoop]
      rw [List.nil_append]
      rw [fileD999]
      simp only [total_size_mk, DirEntry.path_mk, DirEntry.name_mk,
        DirEntry.file_type_mk, DirEntry.is_file_mk]
      norm_num
    rw [build_segments]
    rw [if_neg (by decide)]
    rw [show treeC3.total_size = 1000 from rfl]
    rw [build_segments_recursive]
    rw [if_neg (by norm_num)]
    rw [show treeC3.children = [fileD1, fileD999] from rfl]
    rw [hseg]
    rw [show treeC3.path = ["d"] from rfl]
    simp
  · positivity

/-- C3 (amended): a child dropped for zero size or for the minimum-angle
threshold is omitted entirely — it gets no segment and is not recursed
into (every emitted segment's path lies in a *surviving* child's subtree)
— but subsequent siblings are *shifted earlier*, not gapped: the emitted
ring-`d` intervals are exactly the contiguous `survivorSpans` layout, in
which each survivor starts where the previous survivor ended, beginning at
the parent's start angle, so the slack accumulates at the end of the
parent's span. -/
theorem claim3_amended :
    (∀ (cs : List DirEntry) (d : Nat) (cur range : ℝ) (tot maxd : Nat),
      0 < tot →
      ((segLoop cs d cur range tot maxd).filter (fun s => s.depth == d)).map
        (fun s => (s.start_angle, s.end_angle)) =
        survivorSpans cs cur range tot) ∧
    (∀ (cs : List DirEntry) (d : Nat) (cur range : ℝ) (tot maxd : Nat),
      ∀ s ∈ segLoop cs d cur range tot maxd,
        ∃ c ∈ cs, c.total_size ≠ 0 ∧
          ¬((c.total_size : ℝ) / (tot : ℝ) * range < MIN_ANGLE) ∧
          s.path ∈ subtreePaths c) :=
  ⟨fun cs d cur range tot maxd htot => segLoop_layout cs d range tot maxd htot cur,
   fun cs d cur range tot maxd =>
    (seg_paths_pair (sizeOf cs)).2 cs d cur range tot maxd le_rfl⟩

/-- The witness subdivision, evaluated over the full circle. -/
theorem segLoopW1_two_pi : segLoop [fileA1] 1 0 (2 * Real.pi) 1 5 =
    [⟨["a"], "a", 1, FileType.Other, 1, 0, 2 * Real.pi, true⟩] := by
  rw [segLoop]
  rw [if_neg (by decide)]
  dsimp only
  rw [if_neg (by
    rw [fileA1]
    simp only [total_size_mk]
    rw [MIN_ANGLE]
    intro hcon
    norm_num at hcon
    nlinarith [Real.pi_gt_three])]
  rw [if_neg (by rw [fileA1]; decide)]
  rw [segLoop]
  rw [List.nil_append]
  rw [fileA1]
  simp only [total_size_mk, DirEntry.path_mk, DirEntry.name_mk,
    DirEntry.file_type_mk, DirEntry.is_file_mk, List.cons.injEq,
    Segment.mk.injEq]
  norm_num

/-- Witness for the amended C3 at the concrete one-child subdivision. -/
theorem claim3_witness :
    (((segLoop [fileA1] 1 0 (2 * Real.pi) 1 5).filter
      (fun s => s.depth == 1)).map (fun s => (s.start_angle, s.end_angle)) =
      survivorSpans [fileA1] 0 (2 * Real.pi) 1) ∧
    (∃ c ∈ [fileA1], c.total_size ≠ 0 ∧
      ¬((c.total_size : ℝ) / ((1 : ℕ) : ℝ) * (2 * Real.pi) < MIN_ANGLE) ∧
      (Segment.mk ["a"] "a" 1 FileType.Other 1 0 (2 * Real.pi) true).path ∈
        subtreePaths c) :=
  ⟨claim3_amended.1 [fileA1] 1 0 (2 * Real.pi) 1 5 (by norm_num),
   claim3_amended.2 [fileA1] 1 0 (2 * Real.pi) 1 5
     (Segment.mk ["a"] "a" 1 FileType.Other 1 0 (2 * Real.pi) true)
     (by rw [segLoopW1_two_pi]; exact List.mem_singleton.mpr rfl)⟩

/-! ## Claim C4 -/

/-- C4: round-trip of layout and hit-testing.  If a screen point's computed
ring index equals a built segment's depth and its normalized angle lies
strictly inside that segment's angular interval, then
`find_segment_at_point` returns exactly that segment: segments of one ring
are pairwise disjoint by construction, so the `find` scan cannot stop at
any other segment first. -/
theorem claim4_roundtrip (root : DirEntry) (maxd : Nat)
    (hwf : wellFormed root = true) (s : Segment) (x y cx cy w : ℝ)
    (hs : s ∈ build_segments root maxd)
    (hd : hitDepth (Real.sqrt ((x - cx) * (x - cx) + (y - cy) * (y - cy))) w
      = s.depth)
    (hlo : s.start_angle < normAngle (atan2 (y - cy) (x - cx)))
    (hhi : normAngle (atan2 (y - cy) (x - cx)) < s.end_angle) :
    find_segment_at_point (build_segments root maxd) x y cx cy w = some s := by
  rw [find_segment_at_point]
  apply find_eq_some_of_unique _ _ s hs
  · simp only [Bool.and_eq_true, decide_eq_true_eq, ge_iff_le]
    exact ⟨⟨hd.symm, hlo.le⟩, hhi⟩
  · intro b hb hpb
    simp only [Bool.and_eq_true, decide_eq_true_eq, ge_iff_le] at hpb
    obtain ⟨⟨hbd, hblo⟩, hbhi⟩ := hpb
    by_contra hne
    have hdisj : segDisjoint s b :=
      List.Pairwise.forall segDisjoint_symm
        (build_segments_pairwise root maxd hwf) hs hb
        (fun h => hne h.symm)
    rcases hdisj ((hbd.trans hd).symm) with h1 | h1
    · linarith
    · linarith

/-- Witness for C4: the point `(-1.5, 0)` with center `(0, 0)` and ring
width `1` lies at distance `1.5` (ring 1) and angle `π`, strictly inside
the witness tree's single ring-1 segment `[0, 2π)`, and the hit test
returns that segment. -/
theorem claim4_witness :
    find_segment_at_point (build_segments treeW1 5) (-1.5) 0 0 0 1 =
      some ⟨["a"], "a", 1, FileType.Other, 1, 0, 2 * Real.pi, true⟩ := by
  have hdist : Real.sqrt (((-1.5 : ℝ) - 0) * ((-1.5 : ℝ) - 0) +
      ((0 : ℝ) - 0) * ((0 : ℝ) - 0)) = 1.5 := by
    rw [show ((-1.5 : ℝ) - 0) * ((-1.5 : ℝ) - 0) +
      ((0 : ℝ) - 0) * ((0 : ℝ) - 0) = 1.5 ^ 2 by norm_num]
    exact Real.sqrt_sq (by norm_num)
  have hfloor : ⌊(1.5 : ℝ) / 1⌋ = 1 := by
    rw [Int.floor_eq_iff]
    norm_num
  have hdepth : hitDepth (Real.sqrt (((-1.5 : ℝ) - 0) * ((-1.5 : ℝ) - 0) +
      ((0 : ℝ) - 0) * ((0 : ℝ) - 0))) 1 = 1 := by
    rw [hdist, hitDepth, if_neg (by norm_num), hfloor]
    rfl
  have harg : atan2 ((0 : ℝ) - 0) ((-1.5 : ℝ) - 0) = Real.pi := by
    rw [atan2]
    rw [show (⟨(-1.5 : ℝ) - 0, (0 : ℝ) - 0⟩ : ℂ) = ((-1.5 : ℝ) : ℂ) from
      Complex.ext (by norm_num) (by norm_num)]
    exact Complex.arg_ofReal_of_neg (by norm_num)
  have hnorm : normAngle (atan2 ((0 : ℝ) - 0) ((-1.5 : ℝ) - 0)) = Real.pi := by
    rw [harg, normAngle, if_neg (not_lt.mpr Real.pi_pos.le)]
  exact claim4_roundtrip treeW1 5 (by decide)
    ⟨["a"], "a", 1, FileType.Other, 1, 0, 2 * Real.pi, true⟩
    (-1.5) 0 0 0 1
    (by rw [buildW1_eval]; exact List.mem_cons_of_mem _ (List.mem_singleton.mpr rfl))
    (by rw [hdepth])
    (by rw [hnorm]; exact Real.pi_pos)
    (by rw [hnorm]; show Real.pi < 2 * Real.pi; linarith [Real.pi_pos])

end Scorch
